import Mathlib

/-!
Verification of the JTD parser generator (`lib/compile/jtd/parse.ts`).

The TypeScript source compiles a JTD schema into a specialized parsing
routine over a JSON text buffer.  We shallowly embed the *semantics of the
generated routine*: the input buffer is a `List Char`, the parse position a
`Nat`, and each code generator of the source (`parseElements`,
`parseValues`, `parseDiscriminator`, `parseProperties`, `parseEnum`,
`parseType`, `parseRef`, `parseEmpty`, `parserFunction`) becomes a Lean
function describing exactly what the code it emits does at run time.
Recursion through loops and `ref` is made total with an explicit fuel
parameter; `fuelOut` marks fuel exhaustion and is proved unreachable for
sufficient fuel where needed.

The token-level runtime scanners (`skipWhitespace`, `parseJsonString`,
`parseJsonNumber`, `parseJson`, `validTimestamp`) and the tables
`jtdForms` / `intRange` / `hasRef` live outside the given sources; they are
modelled from the specification and marked as such.
-/

namespace JtdParse

/-- A parsed JSON value. Objects are association lists in insertion order,
mirroring JavaScript object key insertion order. Numbers are modelled as
integers (see `parseJsonNumber`). -/
inductive JsonValue where
  | null : JsonValue
  | bool (b : Bool) : JsonValue
  | num (n : Int) : JsonValue
  | str (s : String) : JsonValue
  | arr (elems : List JsonValue) : JsonValue
  | obj (members : List (String × JsonValue)) : JsonValue

mutual

/-- Boolean equality on parsed JSON values (structural). -/
def jsonBeq : JsonValue → JsonValue → Bool
  | .null, .null => true
  | .bool a, .bool b => a == b
  | .num a, .num b => a == b
  | .str a, .str b => a == b
  | .arr a, .arr b => jsonBeqList a b
  | .obj a, .obj b => jsonBeqObj a b
  | _, _ => false

def jsonBeqList : List JsonValue → List JsonValue → Bool
  | [], [] => true
  | x :: xs, y :: ys => jsonBeq x y && jsonBeqList xs ys
  | _, _ => false

def jsonBeqObj : List (String × JsonValue) → List (String × JsonValue) → Bool
  | [], [] => true
  | (k, x) :: xs, (l, y) :: ys => k == l && jsonBeq x y && jsonBeqObj xs ys
  | _, _ => false

end

mutual

theorem jsonBeq_iff : ∀ (a b : JsonValue), jsonBeq a b = true ↔ a = b
  | .null, b => by cases b <;> simp [jsonBeq]
  | .bool x, b => by cases b <;> simp [jsonBeq]
  | .num x, b => by cases b <;> simp [jsonBeq]
  | .str x, b => by cases b <;> simp [jsonBeq]
  | .arr xs, b => by
    cases b <;> simp [jsonBeq]
    exact jsonBeqList_iff xs _
  | .obj xs, b => by
    cases b <;> simp [jsonBeq]
    exact jsonBeqObj_iff xs _

theorem jsonBeqList_iff : ∀ (xs ys : List JsonValue), jsonBeqList xs ys = true ↔ xs = ys
  | [], [] => by simp [jsonBeqList]
  | [], _ :: _ => by simp [jsonBeqList]
  | _ :: _, [] => by simp [jsonBeqList]
  | x :: xs, y :: ys => by
    simp [jsonBeqList, jsonBeq_iff x y, jsonBeqList_iff xs ys]

theorem jsonBeqObj_iff : ∀ (xs ys : List (String × JsonValue)),
    jsonBeqObj xs ys = true ↔ xs = ys
  | [], [] => by simp [jsonBeqObj]
  | [], _ :: _ => by simp [jsonBeqObj]
  | _ :: _, [] => by simp [jsonBeqObj]
  | (k, x) :: xs, (l, y) :: ys => by
    simp [jsonBeqObj, jsonBeq_iff x y, jsonBeqObj_iff xs ys, and_assoc]

end

instance : DecidableEq JsonValue :=
  fun a b => decidable_of_iff _ (jsonBeq_iff a b)

/-- Result of one generated parse step.
`ok v pos` : value produced, position advanced to `pos`.
`err msg pos` : a structured parse failure: the generated code assigns
`parse.error = \x7bmessage, position\x7d` and returns the failure sentinel
(source `parsingError`, lines 401-404); `pos` is the recorded position,
which always equals the returned position.
`ex msg` : a thrown JavaScript exception, outside the structured error
channel (only `checkDuplicateProperty`, lines 243-247).
`fuelOut` : fuel exhausted (artifact of the embedding). -/
inductive PResT (α : Type) where
  | ok (v : α) (pos : Nat) : PResT α
  | err (msg : String) (pos : Nat) : PResT α
  | ex (msg : String) : PResT α
  | fuelOut : PResT α
deriving DecidableEq

/-- The JTD primitive `type` values (source `parseType`, lines 253-281). -/
inductive JTDType where
  | boolean | string | timestamp | float32 | float64
  | int8 | uint8 | int16 | uint16 | int32 | uint32
deriving DecidableEq

/-- A JTD schema node.  Each form key of the TypeScript schema object
becomes an optional field; a key is "present" when the field is `some`
(resp. a nonempty option).  `mapping`, `nullable` and
`additionalProperties` are companion keys read by the discriminator and
properties generators. -/
inductive Schema where
  | mk
    (elements : Option Schema)
    (values : Option Schema)
    (discriminator : Option String)
    (mapping : List (String × Schema))
    (properties : Option (List (String × Schema)))
    (optionalProperties : Option (List (String × Schema)))
    (enumMembers : Option (List String))
    (typ : Option JTDType)
    (ref : Option String)
    (nullable : Bool)
    (additionalProperties : Bool)

def Schema.elements : Schema → Option Schema
  | .mk e _ _ _ _ _ _ _ _ _ _ => e

def Schema.values : Schema → Option Schema
  | .mk _ v _ _ _ _ _ _ _ _ _ => v

def Schema.discriminator : Schema → Option String
  | .mk _ _ d _ _ _ _ _ _ _ _ => d

def Schema.mapping : Schema → List (String × Schema)
  | .mk _ _ _ m _ _ _ _ _ _ _ => m

def Schema.properties : Schema → Option (List (String × Schema))
  | .mk _ _ _ _ p _ _ _ _ _ _ => p

def Schema.optionalProperties : Schema → Option (List (String × Schema))
  | .mk _ _ _ _ _ o _ _ _ _ _ => o

def Schema.enumMembers : Schema → Option (List String)
  | .mk _ _ _ _ _ _ e _ _ _ _ => e

def Schema.typ : Schema → Option JTDType
  | .mk _ _ _ _ _ _ _ t _ _ _ => t

def Schema.ref : Schema → Option String
  | .mk _ _ _ _ _ _ _ _ r _ _ => r

def Schema.nullable : Schema → Bool
  | .mk _ _ _ _ _ _ _ _ _ n _ => n

def Schema.additionalProperties : Schema → Bool
  | .mk _ _ _ _ _ _ _ _ _ _ a => a

/-- Replace the `nullable` flag of a schema, keeping every other key. -/
def Schema.setNullable : Schema → Bool → Schema
  | .mk e v d m p o en t r _ a, b => .mk e v d m p o en t r b a

/-- The definitions table: name to schema, looked up first-match
(JavaScript object property access). -/
abbrev Defs := List (String × Schema)

/-- First-match association lookup, the JavaScript `obj[key]` access used
for `definitions[ref]`, `mapping[tagValue]` and property dispatch. -/
def findSch : List (String × Schema) → String → Option Schema
  | [], _ => none
  | (k, s) :: rest, key => if k = key then some s else findSch rest key

/-- `Object.prototype.hasOwnProperty.call(data, key)` on the object under
construction (source `isOwnProperty` / `hasPropFunc` usage). -/
def hasKey : List (String × JsonValue) → String → Bool
  | [], _ => false
  | (k, _) :: rest, key => k = key || hasKey rest key

/-- JavaScript assignment `data[key] = v` on an object: overwrite the value
when the key exists, otherwise append preserving insertion order. -/
def setKey : List (String × JsonValue) → String → JsonValue → List (String × JsonValue)
  | [], key, v => [(key, v)]
  | (k, w) :: rest, key, v =>
    if k = key then (k, v) :: rest else (k, w) :: setKey rest key v

/-- First-match value lookup on a parsed object. -/
def lookupKey : List (String × JsonValue) → String → Option JsonValue
  | [], _ => none
  | (k, w) :: rest, key => if k = key then some w else lookupKey rest key

/-! ## Token scanner, modelled from the spec (external collaborator, section 6) -/

/-- JSON whitespace characters. -/
def isWsChar (c : Char) : Bool :=
  c = ' ' || c = '\t' || c = '\n' || c = '\r'

/-- Number of leading whitespace characters of a character list. -/
def wsCount : List Char → Nat
  | [] => 0
  | c :: rest => if isWsChar c then wsCount rest + 1 else 0

/-- Modelled from the spec: Token Scanner `skipWhitespace(text,pos)->pos`
advances the position past JSON whitespace. -/
def skipWhitespace (json : List Char) (pos : Nat) : Nat :=
  pos + wsCount (json.drop pos)

/-- The character cited by a syntax error: `"unexpected token " + json[pos]`,
where JavaScript indexing past the end yields `undefined`. -/
def tokenAt (json : List Char) (pos : Nat) : String :=
  match json[pos]? with
  | some c => String.mk [c]
  | none => "undefined"

/-- Scan the body of a JSON string after the opening quote: returns the
decoded characters and the number of input characters consumed including
the closing quote, or `none` on a malformed / unterminated string.
Part of the modelled `parseJsonString` scanner. -/
def strChars : List Char → Option (List Char × Nat)
  | [] => none
  | c :: rest =>
    if c = '"' then some ([], 1)
    else if c = '\\' then
      match rest with
      | [] => none
      | e :: rest2 =>
        let dec : Option Char :=
          if e = '"' then some '"'
          else if e = '\\' then some '\\'
          else if e = '/' then some '/'
          else if e = 'n' then some '\n'
          else if e = 't' then some '\t'
          else if e = 'r' then some '\r'
          else none
        match dec with
        | none => none
        | some d =>
          match strChars rest2 with
          | some (s, n) => some (d :: s, n + 2)
          | none => none
    else
      match strChars rest with
      | some (s, n) => some (c :: s, n + 1)
      | none => none

/-- Modelled from the spec: Token Scanner
`parseJsonString(text,pos)->(string|failure,pos)`, invoked with `pos` just
after the opening quote; on success returns the decoded string and the
position just after the closing quote. Unicode escapes are out of scope of
the model. -/
def parseJsonString (json : List Char) (pos : Nat) :
    Except (String × Nat) (String × Nat) :=
  match strChars (json.drop pos) with
  | some (cs, n) => .ok (String.mk cs, pos + n)
  | none => .error ("unterminated string", json.length)

def isDigitChar (c : Char) : Bool :=
  '0' ≤ c ∧ c ≤ '9'

def digitsToNat : List Char → Nat → Nat
  | [], acc => acc
  | c :: rest, acc => digitsToNat rest (acc * 10 + (c.toNat - '0'.toNat))

/-- Modelled from the spec: Token Scanner
`parseJsonNumber(text,pos,maxDigits?)->(number|failure,pos)`: an optional
minus sign followed by at least one digit; with `maxDigits` the digit
count is bounded.  The fractional/exponent syntax of the numeric scanner is
out of scope of the model (all claims use integral numbers). -/
def parseJsonNumber (json : List Char) (pos : Nat) (maxDigits : Option Nat) :
    Except (String × Nat) (Int × Nat) :=
  let neg : Bool := json[pos]? = some '-'
  let p1 : Nat := if neg then pos + 1 else pos
  let digits : List Char := (json.drop p1).takeWhile isDigitChar
  if digits.length = 0 then
    .error ("unexpected token " ++ tokenAt json p1, p1)
  else
    match maxDigits with
    | some d =>
      if digits.length > d then .error ("max digits exceeded", p1)
      else
        let v : Int := Int.ofNat (digitsToNat digits 0)
        .ok (if neg then -v else v, p1 + digits.length)
    | none =>
      let v : Int := Int.ofNat (digitsToNat digits 0)
      .ok (if neg then -v else v, p1 + digits.length)

/-- Modelled from the spec: `validTimestamp(string)->bool` checks the
RFC 3339 shape `YYYY-MM-DDTHH:MM:SS` with optional fraction and `Z` or
signed offset.  No claim depends on its fine structure. -/
def validTimestamp (s : String) : Bool :=
  let cs := s.data
  let digitAt (i : Nat) : Bool := (cs[i]?).any isDigitChar
  let chAt (i : Nat) (c : Char) : Bool := cs[i]? = some c
  digitAt 0 && digitAt 1 && digitAt 2 && digitAt 3 && chAt 4 '-' &&
  digitAt 5 && digitAt 6 && chAt 7 '-' && digitAt 8 && digitAt 9 &&
  chAt 10 'T' && digitAt 11 && digitAt 12 && chAt 13 ':' &&
  digitAt 14 && digitAt 15 && chAt 16 ':' && digitAt 17 && digitAt 18 &&
  (chAt 19 'Z' || chAt 19 '+' || chAt 19 '-' || chAt 19 '.')

/-- Modelled from the spec: the closed integer range and digit bound per
fixed-width integer type (`intRange` of the jtd `type` vocabulary):
"reject outside the type's closed range", e.g. `uint8` covers 0..255. -/
def intRangeOf : JTDType → Option (Int × Int × Nat)
  | .int8 => some (-128, 127, 3)
  | .uint8 => some (0, 255, 3)
  | .int16 => some (-32768, 32767, 5)
  | .uint16 => some (0, 65535, 5)
  | .int32 => some (-2147483648, 2147483647, 10)
  | .uint32 => some (0, 4294967295, 10)
  | _ => none

/-! ## Generic JSON parse, modelled from the spec
(`parseJson(text,pos)->(anyValue|failure,pos)`): the accept-any-value
scanner used by `parseEmpty` for untyped schemas and discarded values. -/

mutual

/-- Modelled from the spec: Token Scanner `parseJson(text,pos)`: parse one
JSON value of any shape, returning the value and the advanced position. -/
def parseJson (fuel : Nat) (json : List Char) (pos : Nat) : PResT JsonValue :=
  match fuel with
  | 0 => .fuelOut
  | fuel + 1 =>
    let p := skipWhitespace json pos
    match json[p]? with
    | none => .err ("unexpected token " ++ tokenAt json p) p
    | some c =>
      if c = 'n' then
        if (json.drop p).take 4 = ['n', 'u', 'l', 'l'] then .ok .null (p + 4)
        else .err ("unexpected token " ++ tokenAt json p) p
      else if c = 't' then
        if (json.drop p).take 4 = ['t', 'r', 'u', 'e'] then .ok (.bool true) (p + 4)
        else .err ("unexpected token " ++ tokenAt json p) p
      else if c = 'f' then
        if (json.drop p).take 5 = ['f', 'a', 'l', 's', 'e'] then .ok (.bool false) (p + 5)
        else .err ("unexpected token " ++ tokenAt json p) p
      else if c = '"' then
        match parseJsonString json (p + 1) with
        | .ok (s, q) => .ok (.str s) q
        | .error (m, q) => .err m q
      else if c = '[' then
        jsonArrItems fuel json (p + 1) []
      else if c = '{' then
        jsonObjItems fuel json (p + 1) []
      else if c = '-' || isDigitChar c then
        match parseJsonNumber json p none with
        | .ok (n, q) => .ok (.num n) q
        | .error (m, q) => .err m q
      else .err ("unexpected token " ++ tokenAt json p) p

/-- Modelled from the spec: the element loop of the generic JSON array
parse inside `parseJson`. -/
def jsonArrItems (fuel : Nat) (json : List Char) (pos : Nat)
    (acc : List JsonValue) : PResT JsonValue :=
  match fuel with
  | 0 => .fuelOut
  | fuel + 1 =>
    let p := skipWhitespace json pos
    if acc.isEmpty ∧ json[p]? = some ']' then .ok (.arr acc) (p + 1)
    else
      match parseJson fuel json p with
      | .ok v q =>
        let r := skipWhitespace json q
        match json[r]? with
        | some ',' => jsonArrItems fuel json (r + 1) (acc ++ [v])
        | some ']' => .ok (.arr (acc ++ [v])) (r + 1)
        | _ => .err ("unexpected token " ++ tokenAt json r) r
      | .err m q => .err m q
      | .ex m => .ex m
      | .fuelOut => .fuelOut

/-- Modelled from the spec: the member loop of the generic JSON object
parse inside `parseJson`; later duplicate keys overwrite earlier ones as in
JavaScript. -/
def jsonObjItems (fuel : Nat) (json : List Char) (pos : Nat)
    (acc : List (String × JsonValue)) : PResT JsonValue :=
  match fuel with
  | 0 => .fuelOut
  | fuel + 1 =>
    let p := skipWhitespace json pos
    if acc.isEmpty ∧ json[p]? = some '}' then .ok (.obj acc) (p + 1)
    else
      if json[p]? = some '"' then
        match parseJsonString json (p + 1) with
        | .ok (k, q) =>
          let r := skipWhitespace json q
          if json[r]? = some ':' then
            match parseJson fuel json (r + 1) with
            | .ok v q2 =>
              let r2 := skipWhitespace json q2
              match json[r2]? with
              | some ',' => jsonObjItems fuel json (r2 + 1) (setKey acc k v)
              | some '}' => .ok (.obj (setKey acc k v)) (r2 + 1)
              | _ => .err ("unexpected token " ++ tokenAt json r2) r2
            | .err m q2 => .err m q2
            | .ex m => .ex m
            | .fuelOut => .fuelOut
          else .err ("unexpected token " ++ tokenAt json r) r
        | .error (m, q) => .err m q
      else .err ("unexpected token " ++ tokenAt json p) p

end

/-! ## Schema form selection -/

/-- The resolved form driving code generation, with its payload (the
`genParse` dispatch table, source lines 17-26; `properties` and
`optionalProperties` share the `parseProperties` generator). -/
inductive Form where
  | elements (sub : Schema)
  | values (sub : Schema)
  | discriminator (tag : String) (mapping : List (String × Schema))
  | props
  | enum (members : List String)
  | type (t : JTDType)
  | ref (name : String)

/-- Source `parseCode` (lines 99-108) scans the form keys in a fixed
priority order and takes the first key present; the order of `jtdForms`
itself lives in `lib/compile/jtd/types.ts`, outside the given sources, and
is modelled from the spec (section 3): elements, values, discriminator,
properties, optionalProperties, enum, type, ref. -/
def selectForm (s : Schema) : Option Form :=
  match s.elements with
  | some sub => some (.elements sub)
  | none =>
    match s.values with
    | some sub => some (.values sub)
    | none =>
      match s.discriminator with
      | some tag => some (.discriminator tag s.mapping)
      | none =>
        if s.properties.isSome || s.optionalProperties.isSome then some .props
        else
          match s.enumMembers with
          | some members => some (.enum members)
          | none =>
            match s.typ with
            | some t => some (.type t)
            | none =>
              match s.ref with
              | some name => some (.ref name)
              | none => none

mutual

/-- Modelled from the spec (section 4.6): whether a schema's subtree
contains a `ref` (the `hasRef` helper of the jtd `ref` vocabulary, outside
the given sources): a ref-free target is inlined at the call site,
otherwise the target is compiled as a standalone unit. -/
def hasRefS : Schema → Bool
  | .mk el vals _ mapping props opts _ _ rf _ _ =>
    rf.isSome || hasRefO el || hasRefO vals || hasRefL mapping ||
    hasRefOL props || hasRefOL opts

def hasRefO : Option Schema → Bool
  | none => false
  | some s => hasRefS s

def hasRefL : List (String × Schema) → Bool
  | [] => false
  | (_, s) :: rest => hasRefS s || hasRefL rest

def hasRefOL : Option (List (String × Schema)) → Bool
  | none => false
  | some l => hasRefL l

end

/-! ## Non-recursive pieces of the generated code -/

/-- Semantics of `tryParseToken`/`parseToken` (source lines 365-381): skip
whitespace, compare the next `tok.length` characters with the token;
success advances past the token, failure is reported at the position after
the skipped whitespace. -/
def parseToken (tok : List Char) (json : List Char) (pos : Nat) : PResT Unit :=
  let p := skipWhitespace json pos
  if (json.drop p).take tok.length = tok then .ok () (p + tok.length)
  else .err ("unexpected token " ++ tokenAt json p) p

/-- Semantics of the generated `parseString` (source lines 283-286):
expect an opening quote, then delegate to the string scanner. -/
def parseStringCode (json : List Char) (pos : Nat) : PResT String :=
  match parseToken ['"'] json pos with
  | .ok _ p =>
    match parseJsonString json p with
    | .ok (s, q) => .ok s q
    | .error (m, q) => .err m q
  | .err m p => .err m p
  | .ex m => .ex m
  | .fuelOut => .fuelOut

/-- Semantics of the generated `parseNumber` (source lines 305-313): skip
whitespace, require a character of `"-0123456789"`, then delegate to the
numeric scanner with the optional digit bound. -/
def parseNumberCode (maxDigits : Option Nat) (json : List Char) (pos : Nat) :
    PResT JsonValue :=
  let p := skipWhitespace json pos
  if (json[p]?).any (fun c => c = '-' || isDigitChar c) then
    match parseJsonNumber json p maxDigits with
    | .ok (n, q) => .ok (.num n) q
    | .error (m, q) => .err m q
  else .err ("unexpected token " ++ tokenAt json p) p

/-- `JSON.stringify(value).slice(1)`: the JSON encoding of an enum member
without the opening quote but with the closing quote (source `parseEnum`,
line 295).  Escapes beyond the common ones are out of scope of the model. -/
def encodedTail (m : String) : List Char :=
  (m.data.map (fun c =>
    if c = '"' then ['\\', '"']
    else if c = '\\' then ['\\', '\\']
    else if c = '\n' then ['\\', 'n']
    else if c = '\t' then ['\\', 't']
    else if c = '\r' then ['\\', 'r']
    else [c])).flatten ++ ['"']

/-- The fixed-length literal comparison compiled for one enum member
(source line 296): compare the next `len` characters with the member's
encoded text. -/
def enumMatches (json : List Char) (pos : Nat) (m : String) : Bool :=
  (json.drop pos).take (encodedTail m).length = encodedTail m

/-- Semantics of the generated `parseEnum` (source lines 288-303): expect
an opening quote, then try one fixed-length comparison per member in
declaration order; the first match assigns the decoded member and advances
by the compared length; no match is a syntax error. -/
def parseEnumCode (members : List String) (json : List Char) (pos : Nat) :
    PResT JsonValue :=
  match parseToken ['"'] json pos with
  | .ok _ p =>
    match members.find? (enumMatches json p) with
    | some m => .ok (.str m) (p + (encodedTail m).length)
    | none => .err ("unexpected token " ++ tokenAt json p) p
  | .err m p => .err m p
  | .ex m => .ex m
  | .fuelOut => .fuelOut

/-- Semantics of the generated `parseType` (source lines 253-281). -/
def parseTypeCode (t : JTDType) (json : List Char) (pos : Nat) : PResT JsonValue :=
  match t with
  | .boolean =>
    match parseToken ['t', 'r', 'u', 'e'] json pos with
    | .ok _ p => .ok (.bool true) p
    | .err _ p =>
      match parseToken ['f', 'a', 'l', 's', 'e'] json p with
      | .ok _ q => .ok (.bool false) q
      | .err m q => .err m q
      | .ex m => .ex m
      | .fuelOut => .fuelOut
    | .ex m => .ex m
    | .fuelOut => .fuelOut
  | .string =>
    match parseStringCode json pos with
    | .ok s q => .ok (.str s) q
    | .err m q => .err m q
    | .ex m => .ex m
    | .fuelOut => .fuelOut
  | .timestamp =>
    match parseStringCode json pos with
    | .ok s q => if validTimestamp s then .ok (.str s) q else .err "invalid timestamp" q
    | .err m q => .err m q
    | .ex m => .ex m
    | .fuelOut => .fuelOut
  | .float32 => parseNumberCode none json pos
  | .float64 => parseNumberCode none json pos
  | it =>
    -- the remaining constructors are the fixed-width integer types, for
    -- which `intRangeOf` is defined
    match intRangeOf it with
    | some (mn, mx, maxDigits) =>
      match parseNumberCode (some maxDigits) json pos with
      | .ok (.num n) q =>
        if n < mn ∨ n > mx then .err "integer out of range" q else .ok (.num n) q
      | .ok v q => .ok v q
      | .err m q => .err m q
      | .ex m => .ex m
      | .fuelOut => .fuelOut
    | none => .err ("unexpected token " ++ tokenAt json pos) pos

/-- The closing `parseToken(endToken)` after an item loop (`parseItems`,
source lines 135-138). -/
def finishItems (endTok : Char) (json : List Char) (pos : Nat) (v : JsonValue) :
    PResT JsonValue :=
  match parseToken [endTok] json pos with
  | .ok _ p => .ok v p
  | .err m p => .err m p
  | .ex m => .ex m
  | .fuelOut => .fuelOut

/-- Closing brace plus the required-properties verification of
`parseSchemaProperties` (source lines 226-232): after the object closes,
every name listed under `properties` must be an own property of the parsed
object. -/
def finishProps (props : Option (List (String × Schema))) (json : List Char)
    (pos : Nat) (acc : List (String × JsonValue)) : PResT JsonValue :=
  match parseToken ['}'] json pos with
  | .ok _ p =>
    match props with
    | some propsL =>
      if propsL.all (fun kv => hasKey acc kv.1) then .ok (.obj acc) p
      else .err "missing required properties" p
    | none => .ok (.obj acc) p
  | .err m p => .err m p
  | .ex m => .ex m
  | .fuelOut => .fuelOut

/-- Pass 1 of `parseDiscriminator` (source lines 162-178): scan key/value
pairs from the recorded start; a key equal to the tag field has its value
parsed as a string, recorded as the tag (and assigned into the object),
and scanning stops; other values are parsed generically and discarded. -/
def discriminatorItems (fuel : Nat) (tag : String) (json : List Char)
    (pos : Nat) : PResT (Option String) :=
  match fuel with
  | 0 => .fuelOut
  | fuel + 1 =>
    if pos < json.length ∧ json[pos]? ≠ some '}' then
      match parseStringCode json pos with
      | .ok key p1 =>
        match parseToken [':'] json p1 with
        | .ok _ p2 =>
          if key = tag then
            match parseStringCode json p2 with
            | .ok t p3 => .ok (some t) p3
            | .err m p => .err m p
            | .ex m => .ex m
            | .fuelOut => .fuelOut
          else
            match parseJson fuel json p2 with
            | .ok _ p3 =>
              let q := skipWhitespace json p3
              if json[q]? = some ',' then discriminatorItems fuel tag json (q + 1)
              else .ok none q
            | .err m p => .err m p
            | .ex m => .ex m
            | .fuelOut => .fuelOut
        | .err m p => .err m p
        | .ex m => .ex m
        | .fuelOut => .fuelOut
      | .err m p => .err m p
      | .ex m => .ex m
      | .fuelOut => .fuelOut
    else .ok none pos

/-! ## The generated parser -/

mutual

/-- Semantics of the code emitted by `parseCode` (source lines 99-108):
select the form by the fixed priority order, wrapped by `parseNullable`
(lines 110-114): if the schema is nullable, probe the literal `null` after
skipping whitespace; on match assign null, otherwise run the form's
generator at the position after the skipped whitespace. -/
def parseCode (fuel : Nat) (defs : Defs) (s : Schema) (json : List Char)
    (pos : Nat) : PResT JsonValue :=
  match fuel with
  | 0 => .fuelOut
  | fuel + 1 =>
    if s.nullable then
      let p := skipWhitespace json pos
      if (json.drop p).take 4 = ['n', 'u', 'l', 'l'] then .ok .null (p + 4)
      else parseForm fuel defs s json p
    else parseForm fuel defs s json pos
termination_by structural fuel

/-- Dispatch on the selected form (the `genParse` table, source lines
17-26); a schema with no form key runs `parseEmpty` (source lines
344-346), the accept-any-value generic JSON parse. -/
def parseForm (fuel : Nat) (defs : Defs) (s : Schema) (json : List Char)
    (pos : Nat) : PResT JsonValue :=
  match fuel with
  | 0 => .fuelOut
  | fuel + 1 =>
    match selectForm s with
    | none => parseJson fuel json pos
    | some (.elements sub) =>
      -- parseElements (lines 116-126)
      match parseToken ['['] json pos with
      | .ok _ p => elementsItems fuel defs sub json p []
      | .err m p => .err m p
      | .ex m => .ex m
      | .fuelOut => .fuelOut
    | some (.values sub) =>
      -- parseValues (lines 128-133)
      match parseToken ['{'] json pos with
      | .ok _ p => valuesItems fuel defs sub json p []
      | .err m p => .err m p
      | .ex m => .ex m
      | .fuelOut => .fuelOut
    | some (.discriminator tag mapping) =>
      -- parseDiscriminator (lines 157-189): record the position after
      -- the opening brace, scan for the tag, rewind, then dispatch
      match parseToken ['{'] json pos with
      | .ok _ start =>
        match discriminatorItems fuel tag json start with
        | .ok tagOpt _ =>
          match tagOpt with
          | none => .err "discriminator tag not found" start
          | some t =>
            match findSch mapping t with
            | some branch =>
              schemaPropsItems fuel defs branch.properties
                branch.optionalProperties branch.additionalProperties
                (some tag) json start [(tag, .str t)]
            | none => .err "discriminator value not in schema" start
        | .err m p => .err m p
        | .ex m => .ex m
        | .fuelOut => .fuelOut
      | .err m p => .err m p
      | .ex m => .ex m
      | .fuelOut => .fuelOut
    | some .props =>
      -- parseProperties (lines 191-196)
      match parseToken ['{'] json pos with
      | .ok _ p =>
        schemaPropsItems fuel defs s.properties s.optionalProperties
          s.additionalProperties none json p []
      | .err m p => .err m p
      | .ex m => .ex m
      | .fuelOut => .fuelOut
    | some (.enum members) => parseEnumCode members json pos
    | some (.type t) => parseTypeCode t json pos
    | some (.ref name) =>
      -- parseRef (lines 327-336): a ref-free target is inlined, otherwise
      -- the target is a standalone unit invoked with `partial` semantics,
      -- which appends the unit's trailing whitespace skip on success
      match findSch defs name with
      | none => .ex ("No definition " ++ name)
      | some target =>
        if hasRefS target then
          match parseCode fuel defs target json pos with
          | .ok v p => .ok v (skipWhitespace json p)
          | .err m p => .err m p
          | .ex m => .ex m
          | .fuelOut => .fuelOut
        else parseCode fuel defs target json pos
termination_by structural fuel

/-- The `tryParseItems` loop of `parseElements` (source lines 116-126,
140-146): while the position is in bounds and the next character is not
the end token, parse one element and append it, continuing only after a
comma. -/
def elementsItems (fuel : Nat) (defs : Defs) (sub : Schema) (json : List Char)
    (pos : Nat) (acc : List JsonValue) : PResT JsonValue :=
  match fuel with
  | 0 => .fuelOut
  | fuel + 1 =>
    if pos < json.length ∧ json[pos]? ≠ some ']' then
      match parseCode fuel defs sub json pos with
      | .ok v p =>
        let q := skipWhitespace json p
        if json[q]? = some ',' then
          elementsItems fuel defs sub json (q + 1) (acc ++ [v])
        else finishItems ']' json q (.arr (acc ++ [v]))
      | .err m p => .err m p
      | .ex m => .ex m
      | .fuelOut => .fuelOut
    else finishItems ']' json pos (.arr acc)
termination_by structural fuel

/-- Source `parseKeyValue` (lines 148-155): parse a string key, reject a
duplicate key with a thrown error, expect ':', parse the value with the
uniform sub-schema and store it under the key. -/
def parseKeyValue (fuel : Nat) (defs : Defs) (sub : Schema) (json : List Char)
    (pos : Nat) (acc : List (String × JsonValue)) :
    PResT (List (String × JsonValue)) :=
  match fuel with
  | 0 => .fuelOut
  | fuel + 1 =>
    match parseStringCode json pos with
    | .ok key p1 =>
      if hasKey acc key then .ex ("JSON: duplicate property " ++ key)
      else
        match parseToken [':'] json p1 with
        | .ok _ p2 =>
          match parseCode fuel defs sub json p2 with
          | .ok v p3 => .ok (setKey acc key v) p3
          | .err m p => .err m p
          | .ex m => .ex m
          | .fuelOut => .fuelOut
        | .err m p => .err m p
        | .ex m => .ex m
        | .fuelOut => .fuelOut
    | .err m p => .err m p
    | .ex m => .ex m
    | .fuelOut => .fuelOut
termination_by structural fuel

/-- The `tryParseItems` loop of `parseValues` (source lines 128-133,
140-146). -/
def valuesItems (fuel : Nat) (defs : Defs) (sub : Schema) (json : List Char)
    (pos : Nat) (acc : List (String × JsonValue)) : PResT JsonValue :=
  match fuel with
  | 0 => .fuelOut
  | fuel + 1 =>
    if pos < json.length ∧ json[pos]? ≠ some '}' then
      match parseKeyValue fuel defs sub json pos acc with
      | .ok acc2 p =>
        let q := skipWhitespace json p
        if json[q]? = some ',' then valuesItems fuel defs sub json (q + 1) acc2
        else finishItems '}' json q (.obj acc2)
      | .err m p => .err m p
      | .ex m => .ex m
      | .fuelOut => .fuelOut
    else finishItems '}' json pos (.obj acc)
termination_by structural fuel

/-- One key of `parseSchemaProperties` (source lines 198-225): parse the
key; duplicate check, exempting a key equal to the active discriminator
tag; expect ':'; dispatch by key identity to the matching required then
optional property; on a discriminator reparse re-read the tag as a string
without reassigning it; otherwise parse generically and store under the
key when `additionalProperties` is set, else fail "property ... not
allowed". -/
def propKeyStep (fuel : Nat) (defs : Defs)
    (props opts : Option (List (String × Schema))) (addl : Bool)
    (disc : Option String) (json : List Char) (pos : Nat)
    (acc : List (String × JsonValue)) : PResT (List (String × JsonValue)) :=
  match fuel with
  | 0 => .fuelOut
  | fuel + 1 =>
    match parseStringCode json pos with
    | .ok key p1 =>
      if (match disc with | some d => key != d | none => true) && hasKey acc key then
        .ex ("JSON: duplicate property " ++ key)
      else
        match parseToken [':'] json p1 with
        | .ok _ p2 =>
          match findSch (props.getD []) key with
          | some sub =>
            match parseCode fuel defs sub json p2 with
            | .ok v p3 => .ok (setKey acc key v) p3
            | .err m p => .err m p
            | .ex m => .ex m
            | .fuelOut => .fuelOut
          | none =>
            match findSch (opts.getD []) key with
            | some sub =>
              match parseCode fuel defs sub json p2 with
              | .ok v p3 => .ok (setKey acc key v) p3
              | .err m p => .err m p
              | .ex m => .ex m
              | .fuelOut => .fuelOut
            | none =>
              if disc = some key then
                match parseStringCode json p2 with
                | .ok _ p3 => .ok acc p3
                | .err m p => .err m p
                | .ex m => .ex m
                | .fuelOut => .fuelOut
              else if addl then
                match parseJson fuel json p2 with
                | .ok v p3 => .ok (setKey acc key v) p3
                | .err m p => .err m p
                | .ex m => .ex m
                | .fuelOut => .fuelOut
              else .err ("property " ++ key ++ " not allowed") p2
        | .err m p => .err m p
        | .ex m => .ex m
        | .fuelOut => .fuelOut
    | .err m p => .err m p
    | .ex m => .ex m
    | .fuelOut => .fuelOut
termination_by structural fuel

/-- The `parseItems` loop of `parseSchemaProperties` (source lines
198-233), ending with the closing brace and the required-properties
verification. -/
def schemaPropsItems (fuel : Nat) (defs : Defs)
    (props opts : Option (List (String × Schema))) (addl : Bool)
    (disc : Option String) (json : List Char) (pos : Nat)
    (acc : List (String × JsonValue)) : PResT JsonValue :=
  match fuel with
  | 0 => .fuelOut
  | fuel + 1 =>
    if pos < json.length ∧ json[pos]? ≠ some '}' then
      match propKeyStep fuel defs props opts addl disc json pos acc with
      | .ok acc2 p =>
        let q := skipWhitespace json p
        if json[q]? = some ',' then
          schemaPropsItems fuel defs props opts addl disc json (q + 1) acc2
        else finishProps props json q acc2
      | .err m p => .err m p
      | .ex m => .ex m
      | .fuelOut => .fuelOut
    else finishProps props json pos acc
termination_by structural fuel

end

/-! ## Parser assembly and entry protocol -/

/-- Return value of a compiled parser invocation (source `parserFunction`,
lines 84-97): the value alone, the failure sentinel `undefined`, or the
value/position pair of `partial` mode. -/
inductive RetVal where
  | val (v : JsonValue)
  | undef
  | pair (v : Option JsonValue) (pos : Nat)
deriving DecidableEq

/-- Outcome of one invocation: a returned value together with the final
contents of the `parse.error` slot, a thrown exception (outside the
structured channel), or fuel exhaustion. -/
inductive InvokeOut where
  | ret (r : RetVal) (errSlot : Option (String × Nat))
  | thrown (msg : String)
  | fuelOut
deriving DecidableEq

/-- Source `parserFunction` (lines 84-97): reset the error slot to
undefined, default the position, run the schema's generator chain, skip
trailing whitespace; in `part` mode return the value/position pair,
otherwise require end of input and return the value alone, else record a
syntax error at the unconsumed position and return the failure sentinel.
`prevErr` is whatever the slot held before the invocation; the generated
`parse.error = undefined` discards it. -/
def parserFunction (fuel : Nat) (defs : Defs) (s : Schema) (json : List Char)
    (pos : Nat) (part : Bool) (prevErr : Option (String × Nat)) : InvokeOut :=
  let _ := prevErr
  match parseCode fuel defs s json pos with
  | .ok v p =>
    let q := skipWhitespace json p
    if part then .ret (.pair (some v) q) none
    else if q = json.length then .ret (.val v) none
    else .ret .undef (some ("unexpected token " ++ tokenAt json q, q))
  | .err m p => .ret (if part then .pair none p else .undef) (some (m, p))
  | .ex m => .thrown m
  | .fuelOut => .fuelOut

/-! ## Construction: `compileParser` and missing references -/

/-- Result of running the code generators during compilation: success, a
thrown `MissingRefError`, or fuel exhaustion (artifact; the real compiler
breaks ref cycles with its in-flight registry, which is orthogonal to the
missing-reference behavior modelled here). -/
inductive CRes where
  | ok
  | missingRef (msg : String)
  | fuelOut
deriving DecidableEq

mutual

/-- The traversal performed by the code generators at compile time.  The
only construction-time failure is `parseRef` (source lines 327-336)
throwing `MissingRefError("", ref, "No definition " + ref)` when the
referenced name is absent from the definitions table; every other
generator emits code without failing.  Nested schemas are visited in
emission order: the element/value sub-schema, each discriminator mapping
branch's properties, each defined property's sub-schema, and the target of
a `ref` (whether inlined or compiled as its own unit). -/
def compileGen (fuel : Nat) (defs : Defs) (s : Schema) : CRes :=
  match fuel with
  | 0 => .fuelOut
  | fuel + 1 =>
    match selectForm s with
    | none => .ok
    | some (.elements sub) => compileGen fuel defs sub
    | some (.values sub) => compileGen fuel defs sub
    | some (.discriminator _ mapping) => compileGenBranches fuel defs mapping
    | some .props =>
      compileGenSeq fuel defs ((s.properties.getD []) ++ (s.optionalProperties.getD []))
    | some (.enum _) => .ok
    | some (.type _) => .ok
    | some (.ref name) =>
      match findSch defs name with
      | none => .missingRef ("No definition " ++ name)
      | some target => compileGen fuel defs target

/-- Visit the sub-schemas of a property map in order. -/
def compileGenSeq (fuel : Nat) (defs : Defs) (l : List (String × Schema)) : CRes :=
  match fuel with
  | 0 => .fuelOut
  | fuel + 1 =>
    match l with
    | [] => .ok
    | (_, sub) :: rest =>
      match compileGen fuel defs sub with
      | .ok => compileGenSeq fuel defs rest
      | r => r

/-- Visit each discriminator mapping branch: the branch is generated with
`parseSchemaProperties`, visiting its required and optional property
sub-schemas. -/
def compileGenBranches (fuel : Nat) (defs : Defs) (l : List (String × Schema)) : CRes :=
  match fuel with
  | 0 => .fuelOut
  | fuel + 1 =>
    match l with
    | [] => .ok
    | (_, branch) :: rest =>
      match compileGenSeq fuel defs
          ((branch.properties.getD []) ++ (branch.optionalProperties.getD [])) with
      | .ok => compileGenBranches fuel defs rest
      | r => r

end

/-- The compilation-environment state left by one `compileParser` call
(source lines 38-80) on a fresh schema environment: the generation result,
whether `sch.parse` and `sch.parseName` are set afterwards, and whether
the environment is still registered in the `_compilations` in-flight set.
On success both stay set and the registration is removed by the `finally`
clause; on a thrown `MissingRefError` the `catch` clause deletes
`sch.parse` and `sch.parseName` and rethrows, and the `finally` clause
still clears the registration, so no partially built unit remains. -/
structure CompileOutcome where
  result : CRes
  parseSet : Bool
  parseNameSet : Bool
  inFlight : Bool
deriving DecidableEq

/-- Source `compileParser` (lines 38-80), as environment bookkeeping
around the generation traversal. -/
def compileParser (fuel : Nat) (defs : Defs) (s : Schema) : CompileOutcome :=
  match compileGen fuel defs s with
  | .ok => ⟨.ok, true, true, false⟩
  | .missingRef m => ⟨.missingRef m, false, false, false⟩
  | .fuelOut => ⟨.fuelOut, false, false, false⟩

/-! ## The discriminator protocol as the spec words it (section 4.3) -/

/-- Pass 1 exactly as the spec words it: scan key/value pairs; when a key
equals the tag field, parse its value as a string, record it as the tag
and stop scanning; other keys are parsed and discarded generically; keys
are separated by commas and scanning also stops at the closing brace or
the end of the input. -/
def specScanTag (fuel : Nat) (tagField : String) (json : List Char) (pos : Nat) :
    PResT (Option String) :=
  match fuel with
  | 0 => .fuelOut
  | fuel + 1 =>
    if pos < json.length ∧ json[pos]? ≠ some '}' then
      match parseStringCode json pos with
      | .ok key p1 =>
        match parseToken [':'] json p1 with
        | .ok _ p2 =>
          if key = tagField then
            match parseStringCode json p2 with
            | .ok t p3 => .ok (some t) p3
            | .err m p => .err m p
            | .ex m => .ex m
            | .fuelOut => .fuelOut
          else
            match parseJson fuel json p2 with
            | .ok _ p3 =>
              let q := skipWhitespace json p3
              if json[q]? = some ',' then specScanTag fuel tagField json (q + 1)
              else .ok none q
            | .err m p => .err m p
            | .ex m => .ex m
            | .fuelOut => .fuelOut
        | .err m p => .err m p
        | .ex m => .ex m
        | .fuelOut => .fuelOut
      | .err m p => .err m p
      | .ex m => .ex m
      | .fuelOut => .fuelOut
    else .ok none pos

/-- The two-pass discriminator protocol exactly as the spec words it
(section 4.3): record the start position after the opening brace; run pass
1 from there; rewind the position to the recorded start; if no tag was
found fail "discriminator tag not found"; if the tag is not a key of the
mapping fail "discriminator value not in schema"; otherwise re-parse the
same object from the start position with the matched branch's properties
generator, the tag field being treated as an active discriminator
(recognized but not reassigned) and the tag already assigned into the
object under construction. -/
def discriminatorSpec (fuel : Nat) (defs : Defs) (tagField : String)
    (mapping : List (String × Schema)) (json : List Char) (pos : Nat) :
    PResT JsonValue :=
  match fuel with
  | 0 => .fuelOut
  | fuel + 1 =>
    match parseToken ['{'] json pos with
    | .ok _ start =>
      match specScanTag fuel tagField json start with
      | .ok none _ => .err "discriminator tag not found" start
      | .ok (some t) _ =>
        match findSch mapping t with
        | none => .err "discriminator value not in schema" start
        | some branch =>
          schemaPropsItems fuel defs branch.properties branch.optionalProperties
            branch.additionalProperties (some tagField) json start
            [(tagField, .str t)]
      | .err m p => .err m p
      | .ex m => .ex m
      | .fuelOut => .fuelOut
    | .err m p => .err m p
    | .ex m => .ex m
    | .fuelOut => .fuelOut

/-! ## Basic lemmas about the scanner primitives -/

theorem wsCount_drop_wsCount (l : List Char) : wsCount (l.drop (wsCount l)) = 0 := by
  induction l with
  | nil => rfl
  | cons c rest ih =>
    by_cases h : isWsChar c
    · simpa [wsCount, h] using ih
    · simp [wsCount, h]

theorem skipWhitespace_idem (json : List Char) (pos : Nat) :
    skipWhitespace json (skipWhitespace json pos) = skipWhitespace json pos := by
  unfold skipWhitespace
  have hdrop : json.drop (pos + wsCount (json.drop pos)) =
      (json.drop pos).drop (wsCount (json.drop pos)) := by
    rw [List.drop_drop, Nat.add_comm]
  rw [hdrop, wsCount_drop_wsCount]
  omega

theorem skipWhitespace_le (json : List Char) (pos : Nat) :
    pos ≤ skipWhitespace json pos :=
  Nat.le_add_right _ _

theorem take_one_eq_iff (l : List Char) (p : Nat) (c : Char) :
    (l.drop p).take 1 = [c] ↔ l[p]? = some c := by
  rw [← List.head?_drop]
  cases l.drop p <;> simp

theorem parseToken_single (c : Char) (json : List Char) (pos : Nat) :
    parseToken [c] json pos =
      (if json[skipWhitespace json pos]? = some c
       then .ok () (skipWhitespace json pos + 1)
       else .err ("unexpected token " ++ tokenAt json (skipWhitespace json pos))
              (skipWhitespace json pos)) := by
  unfold parseToken
  simp only [List.length_singleton, take_one_eq_iff]

/-! ## Example schemas and inputs used in concrete statements -/

/-- The empty schema: no form key present, hence the accept-any-value
generator. -/
def emptySchema : Schema := .mk none none none [] none none none none none false false

def stringType : Schema := .mk none none none [] none none none (some .string) none false false

def int32Type : Schema := .mk none none none [] none none none (some .int32) none false false

/-- `properties: {a: {type: "string"}}` with the given
`additionalProperties` flag (spec section 8 strictness example). -/
def propsASchema (addl : Bool) : Schema :=
  .mk none none none [] (some [("a", stringType)]) none none none none false addl

/-- A `values` schema with the empty sub-schema. -/
def valuesSchema : Schema := .mk none (some emptySchema) none [] none none none none none false false

def branchA : Schema := .mk none none none [] (some [("x", int32Type)]) none none none none false false

def branchB : Schema := .mk none none none [] (some [("y", stringType)]) none none none none false false

/-- Discriminator tag "type", mapping a/b (spec section 8 example). -/
def discSchema : Schema :=
  .mk none none (some "type") [("a", branchA), ("b", branchB)] none none none none none false false

/-- The input text `{} trailing`. -/
def trailingInput : List Char := ['{', '}', ' ', 't', 'r', 'a', 'i', 'l', 'i', 'n', 'g']

/-- The input text with a duplicated key, `a` bound to 1 and then to 2. -/
def dupInput : List Char := ['{', '"', 'a', '"', ':', '1', ',', '"', 'a', '"', ':', '2', '}']

/-- The input text with key `a` bound twice, to `x` and to `y`. -/
def dupPropsInput : List Char :=
  ['{', '"', 'a', '"', ':', '"', 'x', '"', ',', '"', 'a', '"', ':', '"', 'y', '"', '}']

/-- The input text with key `type` bound to `b` and key `y` bound to `hi`. -/
def discInputB : List Char :=
  ['{', '"', 't', 'y', 'p', 'e', '"', ':', '"', 'b', '"', ',', '"', 'y', '"', ':', '"', 'h', 'i', '"', '}']

/-- The input text with key `a` bound to `x` and key `b` bound to 1. -/
def abInput : List Char := ['{', '"', 'a', '"', ':', '"', 'x', '"', ',', '"', 'b', '"', ':', '1', '}']

def emptyObjInput : List Char := ['{', '}']

/-! ## C8: missing reference fails at construction time -/

/-- C8: for every `ref` schema whose name is absent from the definitions
table, compilation fails immediately with the thrown `MissingRefError`
("No definition <ref>"), a construction-time outcome distinct by type from
any parse-time `PResT` failure; afterwards the environment's `parse` and
`parseName` are removed and the in-flight `_compilations` registration is
cleared, so no partially built unit remains usable. -/
theorem missing_ref_compile_failure (fuel : Nat) (defs : Defs) (name : String)
    (nb ap : Bool) (h : findSch defs name = none) :
    compileParser (fuel + 1) defs
      (.mk none none none [] none none none none (some name) nb ap) =
      ⟨.missingRef ("No definition " ++ name), false, false, false⟩ := by
  unfold compileParser compileGen
  simp [selectForm, Schema.elements, Schema.values, Schema.discriminator,
    Schema.properties, Schema.optionalProperties, Schema.enumMembers,
    Schema.typ, Schema.ref, h]

theorem missing_ref_compile_failure_witness :
    findSch [] "foo" = none ∧
    compileParser 1 [] (.mk none none none [] none none none none (some "foo") false false) =
      ⟨.missingRef ("No definition " ++ "foo"), false, false, false⟩ :=
  ⟨rfl, missing_ref_compile_failure 0 [] "foo" false false rfl⟩

/-! ## C10: the error slot is reset per invocation -/

/-- Whether a returned value signals a failed invocation: the failure
sentinel `undefined`, or `[undefined, pos]` in `partial` mode. -/
def failedRet : RetVal → Bool
  | .val _ => false
  | .undef => true
  | .pair none _ => true
  | .pair (some _) _ => false

/-- C10: a compiled parser resets its error slot to undefined before any
parsing, so the slot contents left by an earlier invocation are
unobservable (the outcome with any `prevErr` equals the outcome with an
empty slot), and after an invocation returns, the slot holds a
`(message, position)` record if and only if that invocation failed. -/
theorem error_slot_reset_and_iff (fuel : Nat) (defs : Defs) (s : Schema)
    (json : List Char) (pos : Nat) (part : Bool) (prevErr : Option (String × Nat))
    (r : RetVal) (slot : Option (String × Nat))
    (h : parserFunction fuel defs s json pos part prevErr = .ret r slot) :
    parserFunction fuel defs s json pos part none = .ret r slot ∧
      slot.isSome = failedRet r := by
  refine ⟨h, ?_⟩
  unfold parserFunction at h
  cases hp : parseCode fuel defs s json pos with
  | ok v p =>
    rw [hp] at h
    by_cases hq : part
    · simp only [hq, if_true] at h
      injection h with h1 h2
      subst h1; subst h2; rfl
    · simp only [hq, if_false] at h
      by_cases hlen : skipWhitespace json p = json.length
      · rw [if_pos hlen] at h
        injection h with h1 h2
        subst h1; subst h2; rfl
      · rw [if_neg hlen] at h
        injection h with h1 h2
        subst h1; subst h2; rfl
  | err m p =>
    rw [hp] at h
    injection h with h1 h2
    subst h1; subst h2
    cases part <;> rfl
  | ex m => rw [hp] at h; exact absurd h (by simp)
  | fuelOut => rw [hp] at h; exact absurd h (by simp)

theorem error_slot_reset_witness :
    parserFunction 5 [] emptySchema ['1'] 0 false none = .ret (.val (.num 1)) none ∧
      (none : Option (String × Nat)).isSome = failedRet (.val (.num 1)) :=
  error_slot_reset_and_iff 5 [] emptySchema ['1'] 0 false (some ("stale", 7))
    (.val (.num 1)) none (by decide)

/-! ## C2: entry protocol and partial mode -/

/-- C2 counterexample: parsing `{} trailing` against the
empty-object-accepting empty schema in `partial` mode succeeds, but the
returned position is 3 — after the closing brace AND the whitespace that
follows it, because the generated function skips trailing whitespace
before the `partial` check — not the position 2 immediately after the
brace as the claim states. -/
theorem partial_trailing_position_counterexample :
    parserFunction 5 [] emptySchema trailingInput 0 true none =
      .ret (.pair (some (.obj [])) 3) none ∧ (3 : Nat) ≠ 2 :=
  ⟨by decide, by decide⟩

/-- C2 (amended): after the generator chain and the trailing whitespace
skip, `partial` mode returns the value/position pair for every structured
outcome (success or recorded parse error); non-`partial` mode returns the
value alone exactly when the position reaches the input length, and
otherwise fails with a syntax error recorded at the unconsumed position.
On `{} trailing`, `partial` mode succeeds with position 3 (after the brace
and the following whitespace) and non-`partial` mode fails with a syntax
error at that position. -/
theorem parser_entry_protocol :
    (∀ fuel defs s json pos prev v p, parseCode fuel defs s json pos = .ok v p →
      parserFunction fuel defs s json pos true prev =
        .ret (.pair (some v) (skipWhitespace json p)) none) ∧
    (∀ fuel defs s json pos prev m p, parseCode fuel defs s json pos = .err m p →
      parserFunction fuel defs s json pos true prev = .ret (.pair none p) (some (m, p))) ∧
    (∀ fuel defs s json pos prev v p, parseCode fuel defs s json pos = .ok v p →
      skipWhitespace json p = json.length →
      parserFunction fuel defs s json pos false prev = .ret (.val v) none) ∧
    (∀ fuel defs s json pos prev v p, parseCode fuel defs s json pos = .ok v p →
      skipWhitespace json p ≠ json.length →
      parserFunction fuel defs s json pos false prev =
        .ret .undef (some ("unexpected token " ++ tokenAt json (skipWhitespace json p),
          skipWhitespace json p))) ∧
    (∀ fuel defs s json pos prev m p, parseCode fuel defs s json pos = .err m p →
      parserFunction fuel defs s json pos false prev = .ret .undef (some (m, p))) ∧
    parserFunction 5 [] emptySchema trailingInput 0 true none =
      .ret (.pair (some (.obj [])) 3) none ∧
    parserFunction 5 [] emptySchema trailingInput 0 false none =
      .ret .undef (some ("unexpected token t", 3)) := by
  refine ⟨?_, ?_, ?_, ?_, ?_, by decide, by decide⟩
  · intro fuel defs s json pos prev v p h
    unfold parserFunction
    rw [h]
    simp
  · intro fuel defs s json pos prev m p h
    unfold parserFunction
    rw [h]
    simp
  · intro fuel defs s json pos prev v p h hlen
    unfold parserFunction
    rw [h]
    simp [hlen]
  · intro fuel defs s json pos prev v p h hlen
    unfold parserFunction
    rw [h]
    simp [hlen]
  · intro fuel defs s json pos prev m p h
    unfold parserFunction
    rw [h]
    simp

theorem parser_entry_protocol_witness :
    parserFunction 5 [] emptySchema ['7', ' '] 0 true none =
      .ret (.pair (some (.num 7)) 2) none :=
  parser_entry_protocol.1 5 [] emptySchema ['7', ' '] 0 none (.num 7) 1 (by decide)

/-! ## C3: form selection priority -/

/-- The schema containing only the selected form's keys (plus the
orthogonal `nullable` flag and the companion keys the selected generator
reads: `mapping` for a discriminator, both property maps and
`additionalProperties` for the properties generator); every other form key
is cleared. -/
def projectForm (s : Schema) : Schema :=
  match selectForm s with
  | none => .mk none none none [] none none none none none s.nullable s.additionalProperties
  | some (.elements sub) =>
    .mk (some sub) none none [] none none none none none s.nullable s.additionalProperties
  | some (.values sub) =>
    .mk none (some sub) none [] none none none none none s.nullable s.additionalProperties
  | some (.discriminator tag mapping) =>
    .mk none none (some tag) mapping none none none none none s.nullable s.additionalProperties
  | some .props =>
    .mk none none none [] s.properties s.optionalProperties none none none s.nullable
      s.additionalProperties
  | some (.enum members) =>
    .mk none none none [] none none (some members) none none s.nullable s.additionalProperties
  | some (.type t) =>
    .mk none none none [] none none none (some t) none s.nullable s.additionalProperties
  | some (.ref name) =>
    .mk none none none [] none none none none (some name) s.nullable s.additionalProperties

theorem selectForm_projectForm (s : Schema) : selectForm (projectForm s) = selectForm s := by
  obtain ⟨el, vals, disc, mapping, props, opts, en, ty, rf, nb, ap⟩ := s
  cases el <;> cases vals <;> cases disc <;> cases props <;> cases opts <;>
    cases en <;> cases ty <;> cases rf <;> rfl

theorem projectForm_nullable (s : Schema) : (projectForm s).nullable = s.nullable := by
  unfold projectForm
  cases hs : selectForm s with
  | none => rfl
  | some F => cases F <;> rfl

theorem parseForm_project (fuel : Nat) (defs : Defs) (s : Schema) (json : List Char)
    (pos : Nat) : parseForm fuel defs (projectForm s) json pos = parseForm fuel defs s json pos := by
  cases fuel with
  | zero => rfl
  | succ f =>
    have hps := selectForm_projectForm s
    cases hs : selectForm s with
    | none =>
      rw [hs] at hps
      simp only [parseForm, hps, hs]
    | some F =>
      rw [hs] at hps
      cases F with
      | props =>
        have h1 : (projectForm s).properties = s.properties := by
          simp [projectForm, hs, Schema.properties]
        have h2 : (projectForm s).optionalProperties = s.optionalProperties := by
          simp [projectForm, hs, Schema.optionalProperties]
        have h3 : (projectForm s).additionalProperties = s.additionalProperties := by
          simp [projectForm, hs, Schema.additionalProperties]
        simp only [parseForm, hps, hs, h1, h2, h3]
      | elements sub => simp only [parseForm, hps, hs]
      | values sub => simp only [parseForm, hps, hs]
      | discriminator tag mapping => simp only [parseForm, hps, hs]
      | enum members => simp only [parseForm, hps, hs]
      | type t => simp only [parseForm, hps, hs]
      | ref name => simp only [parseForm, hps, hs]

theorem parseCode_project (fuel : Nat) (defs : Defs) (s : Schema) (json : List Char)
    (pos : Nat) : parseCode fuel defs (projectForm s) json pos = parseCode fuel defs s json pos := by
  cases fuel with
  | zero => rfl
  | succ f =>
    simp only [parseCode, projectForm_nullable]
    by_cases hb : s.nullable <;> simp only [hb, if_true, if_false, Bool.false_eq_true] <;>
      rw [parseForm_project]

/-- C3: exactly one form drives code generation: the generator is selected
by scanning the fixed priority order (elements, values, discriminator,
properties, optionalProperties, enum, type, ref) and taking the first key
present, so a schema parses exactly like its projection onto the selected
form even when later form keys are also present; a schema containing no
form key runs the accept-any-value generic JSON parse; concretely, a
schema carrying both `elements` and `type` parses input `[]` as an array
via the `elements` generator. -/
theorem form_priority_selection :
    (∀ fuel defs s json pos,
      parseCode fuel defs s json pos = parseCode fuel defs (projectForm s) json pos) ∧
    (∀ fuel defs s json pos, selectForm s = none →
      parseForm (fuel + 1) defs s json pos = parseJson fuel json pos) ∧
    parseCode 10 []
      (.mk (some int32Type) none none [] none none none (some .string) none false false)
      ['[', ']'] 0 = .ok (.arr []) 2 := by
  refine ⟨?_, ?_, by decide⟩
  · intro fuel defs s json pos
    exact (parseCode_project fuel defs s json pos).symm
  · intro fuel defs s json pos h
    simp only [parseForm, h]

theorem form_priority_selection_witness :
    parseForm 1 [] emptySchema ['5'] 0 = parseJson 0 ['5'] 0 :=
  form_priority_selection.2.1 0 [] emptySchema ['5'] 0 rfl

/-! ## Whitespace invariance of the generators -/

theorem parseToken_ws (tok : List Char) (json : List Char) (pos : Nat) :
    parseToken tok json (skipWhitespace json pos) = parseToken tok json pos := by
  simp only [parseToken, skipWhitespace_idem]

theorem parseStringCode_ws (json : List Char) (pos : Nat) :
    parseStringCode json (skipWhitespace json pos) = parseStringCode json pos := by
  unfold parseStringCode
  rw [parseToken_ws]

theorem parseNumberCode_ws (maxDigits : Option Nat) (json : List Char) (pos : Nat) :
    parseNumberCode maxDigits json (skipWhitespace json pos) =
      parseNumberCode maxDigits json pos := by
  simp only [parseNumberCode, skipWhitespace_idem]

theorem parseEnumCode_ws (members : List String) (json : List Char) (pos : Nat) :
    parseEnumCode members json (skipWhitespace json pos) = parseEnumCode members json pos := by
  unfold parseEnumCode
  rw [parseToken_ws]

theorem parseTypeCode_ws (t : JTDType) (json : List Char) (pos : Nat) :
    parseTypeCode t json (skipWhitespace json pos) = parseTypeCode t json pos := by
  cases t <;>
    simp only [parseTypeCode, parseToken_ws, parseStringCode_ws, parseNumberCode_ws, intRangeOf]

theorem parseJson_ws (fuel : Nat) (json : List Char) (pos : Nat) :
    parseJson fuel json (skipWhitespace json pos) = parseJson fuel json pos := by
  cases fuel with
  | zero => rfl
  | succ f => simp only [parseJson, skipWhitespace_idem]

/-- Running a form generator from the position after a whitespace skip
gives the same outcome as running it from the original position: every
generator begins by skipping whitespace itself. -/
theorem parse_ws_invariance (fuel : Nat) :
    (∀ defs s json pos,
      parseForm fuel defs s json (skipWhitespace json pos) = parseForm fuel defs s json pos) ∧
    (∀ defs s json pos,
      parseCode fuel defs s json (skipWhitespace json pos) = parseCode fuel defs s json pos) := by
  induction fuel with
  | zero => exact ⟨fun _ _ _ _ => rfl, fun _ _ _ _ => rfl⟩
  | succ f ih =>
    constructor
    · intro defs s json pos
      cases hs : selectForm s with
      | none =>
        simp only [parseForm, hs]
        exact parseJson_ws f json pos
      | some F =>
        cases F with
        | elements sub => simp only [parseForm, hs, parseToken_ws]
        | values sub => simp only [parseForm, hs, parseToken_ws]
        | discriminator tag mapping => simp only [parseForm, hs, parseToken_ws]
        | props => simp only [parseForm, hs, parseToken_ws]
        | enum members =>
          simp only [parseForm, hs]
          exact parseEnumCode_ws members json pos
        | type t =>
          simp only [parseForm, hs]
          exact parseTypeCode_ws t json pos
        | ref name =>
          simp only [parseForm, hs]
          cases ht : findSch defs name with
          | none => rfl
          | some target =>
            by_cases hr : hasRefS target <;> simp only [hr, if_true, if_false, ih.2,
              Bool.false_eq_true]
    · intro defs s json pos
      by_cases hb : s.nullable
      · simp only [parseCode, hb, if_true, skipWhitespace_idem]
      · simp only [parseCode, hb, if_false, Bool.false_eq_true]
        exact ih.1 defs s json pos

/-! ## C6: the nullable probe -/

/-- A nullable string-`type` schema. -/
def nullStringType : Schema :=
  .mk none none none [] none none none (some .string) none true false

theorem parseForm_setNullable (fuel : Nat) (defs : Defs) (s : Schema) (b : Bool)
    (json : List Char) (pos : Nat) :
    parseForm fuel defs (s.setNullable b) json pos = parseForm fuel defs s json pos := by
  obtain ⟨el, vals, disc, mapping, props, opts, en, ty, rf, nb, ap⟩ := s
  cases fuel <;> rfl

/-- C6: for every schema with `nullable` set, the generated parser first
probes the literal `null` after skipping whitespace; on a match the data
is `null` and the form's generator does not run; on a mismatch parsing
behaves exactly like the same schema without `nullable` run from the
original position — the failed probe consumed no input. -/
theorem nullable_probe :
    (∀ fuel defs s json pos, s.nullable = true →
      (json.drop (skipWhitespace json pos)).take 4 = ['n', 'u', 'l', 'l'] →
      parseCode (fuel + 1) defs s json pos = .ok .null (skipWhitespace json pos + 4)) ∧
    (∀ fuel defs s json pos, s.nullable = true →
      (json.drop (skipWhitespace json pos)).take 4 ≠ ['n', 'u', 'l', 'l'] →
      parseCode (fuel + 1) defs s json pos =
        parseCode (fuel + 1) defs (s.setNullable false) json pos) := by
  constructor
  · intro fuel defs s json pos hb hn
    simp only [parseCode, hb, if_true, hn, if_pos]
  · intro fuel defs s json pos hb hn
    have h1 : (s.setNullable false).nullable = false := by
      obtain ⟨el, vals, disc, mapping, props, opts, en, ty, rf, nb, ap⟩ := s
      rfl
    simp only [parseCode, hb, h1, if_true, if_false, if_neg hn, Bool.false_eq_true]
    rw [parseForm_setNullable]
    exact (parse_ws_invariance fuel).1 defs s json pos

theorem nullable_probe_witness :
    parseCode 4 [] nullStringType [' ', 'n', 'u', 'l', 'l'] 0 =
      .ok .null (skipWhitespace [' ', 'n', 'u', 'l', 'l'] 0 + 4) ∧
    parseCode 4 [] nullStringType ['"', 'x', '"'] 0 =
      parseCode 4 [] (nullStringType.setNullable false) ['"', 'x', '"'] 0 :=
  ⟨nullable_probe.1 3 [] nullStringType [' ', 'n', 'u', 'l', 'l'] 0 (by decide) (by decide),
   nullable_probe.2 3 [] nullStringType ['"', 'x', '"'] 0 (by decide) (by decide)⟩

/-! ## C7: enum matching in declaration order -/

/-- C7: for every enum schema the generated parser expects an opening
double quote and then tries one fixed-length literal comparison per member
in declaration order against that member's JSON-encoded text without the
opening quote; the first member whose comparison succeeds has its decoded
value assigned and the position advanced by the compared length; if no
member matches, the invocation fails with a syntax error. -/
theorem enum_declaration_order :
    (∀ fuel defs members nb ap json pos,
      parseForm (fuel + 1) defs (.mk none none none [] none none (some members) none none nb ap)
        json pos = parseEnumCode members json pos) ∧
    (∀ members json pos m, json[skipWhitespace json pos]? = some '"' →
      members.find? (enumMatches json (skipWhitespace json pos + 1)) = some m →
      parseEnumCode members json pos =
        .ok (.str m) (skipWhitespace json pos + 1 + (encodedTail m).length)) ∧
    (∀ members json pos, json[skipWhitespace json pos]? = some '"' →
      members.find? (enumMatches json (skipWhitespace json pos + 1)) = none →
      parseEnumCode members json pos =
        .err ("unexpected token " ++ tokenAt json (skipWhitespace json pos + 1))
          (skipWhitespace json pos + 1)) ∧
    (∀ members json pos, json[skipWhitespace json pos]? ≠ some '"' →
      parseEnumCode members json pos =
        .err ("unexpected token " ++ tokenAt json (skipWhitespace json pos))
          (skipWhitespace json pos)) := by
  refine ⟨?_, ?_, ?_, ?_⟩
  · intro fuel defs members nb ap json pos
    simp only [parseForm, selectForm, Schema.elements, Schema.values, Schema.discriminator,
      Schema.properties, Schema.optionalProperties, Schema.enumMembers, Option.isSome,
      Bool.or_self, Bool.false_eq_true, if_false]
  · intro members json pos m hq hf
    unfold parseEnumCode
    rw [parseToken_single, if_pos hq]
    simp only [hf]
  · intro members json pos hq hf
    unfold parseEnumCode
    rw [parseToken_single, if_pos hq]
    simp only [hf]
  · intro members json pos hq
    unfold parseEnumCode
    rw [parseToken_single, if_neg hq]

theorem enum_declaration_order_witness :
    parseEnumCode ["ab", "a"] ['"', 'a', '"'] 0 =
      .ok (.str "a") (skipWhitespace ['"', 'a', '"'] 0 + 1 + (encodedTail "a").length) :=
  enum_declaration_order.2.1 ["ab", "a"] ['"', 'a', '"'] 0 "a" (by decide) (by decide)

/-! ## C4: properties strictness -/

/-- C4 counterexample: with `additionalProperties: true`, the unknown key
`b` of input `{"a":"x","b":1}` is parsed generically and STORED in the
result object — not discarded as the claim states: the parsed object
contains `b` bound to 1 (source line 220 assigns `data[key]`). -/
theorem additional_properties_stored_counterexample :
    parseCode 50 [] (propsASchema true) abInput 0 =
      .ok (.obj [("a", .str "x"), ("b", .num 1)]) 15 ∧
    lookupKey [("a", JsonValue.str "x"), ("b", JsonValue.num 1)] "b" = some (.num 1) :=
  ⟨by decide, by decide⟩

/-- C4 (amended): for every properties/optionalProperties schema, a parsed
key that matches neither a required nor an optional property name fails
the invocation with "property <key> not allowed" when
`additionalProperties` is false, and is parsed generically and stored
under its key when `additionalProperties` is true; and after the closing
brace, if any name listed under `properties` is absent from the parsed
object the invocation fails with "missing required properties". -/
theorem properties_strictness :
    (∀ fuel defs props opts json pos acc key p1 p2,
      parseStringCode json pos = .ok key p1 →
      hasKey acc key = false →
      parseToken [':'] json p1 = .ok () p2 →
      findSch (props.getD []) key = none →
      findSch (opts.getD []) key = none →
      propKeyStep (fuel + 1) defs props opts false none json pos acc =
        .err ("property " ++ key ++ " not allowed") p2) ∧
    (∀ fuel defs props opts json pos acc key p1 p2 v p3,
      parseStringCode json pos = .ok key p1 →
      hasKey acc key = false →
      parseToken [':'] json p1 = .ok () p2 →
      findSch (props.getD []) key = none →
      findSch (opts.getD []) key = none →
      parseJson fuel json p2 = .ok v p3 →
      propKeyStep (fuel + 1) defs props opts true none json pos acc =
        .ok (setKey acc key v) p3) ∧
    (∀ propsL json pos acc p,
      parseToken ['}'] json pos = .ok () p →
      propsL.all (fun kv => hasKey acc kv.1) = false →
      finishProps (some propsL) json pos acc = .err "missing required properties" p) ∧
    parserFunction 50 [] (propsASchema false) abInput 0 false none =
      .ret .undef (some ("property b not allowed", 13)) ∧
    parserFunction 50 [] (propsASchema false) emptyObjInput 0 false none =
      .ret .undef (some ("missing required properties", 2)) := by
  refine ⟨?_, ?_, ?_, by decide, by decide⟩
  · intro fuel defs props opts json pos acc key p1 p2 hk hdup hc hp ho
    simp only [propKeyStep, hk, hdup, hc, hp, ho, Bool.and_false, Bool.false_eq_true,
      if_false, reduceCtorEq, ite_false]
  · intro fuel defs props opts json pos acc key p1 p2 v p3 hk hdup hc hp ho hj
    simp only [propKeyStep, hk, hdup, hc, hp, ho, hj, Bool.and_false, Bool.false_eq_true,
      if_false, if_true, reduceCtorEq, ite_false, ite_true]
  · intro propsL json pos acc p hc hall
    simp only [finishProps, hc, hall, Bool.false_eq_true, if_false]

theorem properties_strictness_witness :
    propKeyStep 3 [] (some [("a", stringType)]) none false none
      ['"', 'b', '"', ':', '1'] 0 [] = .err ("property " ++ "b" ++ " not allowed") 4 :=
  properties_strictness.1 2 [] (some [("a", stringType)]) none
    ['"', 'b', '"', ':', '1'] 0 [] "b" 3 4 (by decide) (by decide) (by decide)
    rfl rfl

/-! ## C5: duplicate keys are a thrown hard failure -/

/-- C5: for values, properties and optionalProperties parsing alike, a key
that is already an own property of the object under construction is an
unconditional thrown failure outside the structured error channel (the
`InvokeOut.thrown` outcome, not a recorded `{message, position}` error):
the values key step (`parseKeyValue`, source lines 148-155), the
properties/optionalProperties key step with no active discriminator tag
(`propKeyStep`, source lines 204-207), and the discriminator-reparse key
step for a key different from the tag all throw
"JSON: duplicate property <key>"; `{"a":1,"a":2}` against a values schema
throws in both invocation modes and `{"a":"x","a":"y"}` against a
properties schema throws end-to-end; the single exemption is a
discriminator-reparse key equal to the active tag, which skips the check
(the step succeeds without reassigning the tag), so the spec's
discriminator example parses successfully even though its tag key is
already an own property when re-encountered. -/
theorem duplicate_key_hard_failure :
    (∀ fuel defs sub json pos acc key p1,
      parseStringCode json pos = .ok key p1 →
      hasKey acc key = true →
      parseKeyValue (fuel + 1) defs sub json pos acc =
        .ex ("JSON: duplicate property " ++ key)) ∧
    (∀ fuel defs props opts addl json pos acc key p1,
      parseStringCode json pos = .ok key p1 →
      hasKey acc key = true →
      propKeyStep (fuel + 1) defs props opts addl none json pos acc =
        .ex ("JSON: duplicate property " ++ key)) ∧
    (∀ fuel defs props opts addl d json pos acc key p1,
      parseStringCode json pos = .ok key p1 →
      hasKey acc key = true →
      key ≠ d →
      propKeyStep (fuel + 1) defs props opts addl (some d) json pos acc =
        .ex ("JSON: duplicate property " ++ key)) ∧
    (∀ fuel defs props opts addl d json pos acc p1 p2 t p3,
      parseStringCode json pos = .ok d p1 →
      parseToken [':'] json p1 = .ok () p2 →
      parseStringCode json p2 = .ok t p3 →
      findSch (props.getD []) d = none →
      findSch (opts.getD []) d = none →
      propKeyStep (fuel + 1) defs props opts addl (some d) json pos acc = .ok acc p3) ∧
    parserFunction 50 [] valuesSchema dupInput 0 false none =
      .thrown "JSON: duplicate property a" ∧
    parserFunction 50 [] valuesSchema dupInput 0 true none =
      .thrown "JSON: duplicate property a" ∧
    parserFunction 50 [] (propsASchema false) dupPropsInput 0 false none =
      .thrown "JSON: duplicate property a" ∧
    parserFunction 50 [] discSchema discInputB 0 false none =
      .ret (.val (.obj [("type", .str "b"), ("y", .str "hi")])) none := by
  refine ⟨?_, ?_, ?_, ?_, by decide, by decide, by decide, by decide⟩
  · intro fuel defs sub json pos acc key p1 hk hdup
    simp only [parseKeyValue, hk, hdup, if_true]
  · intro fuel defs props opts addl json pos acc key p1 hk hdup
    simp only [propKeyStep, hk, hdup, Bool.true_and, if_true]
  · intro fuel defs props opts addl d json pos acc key p1 hk hdup hne
    have hbne : (key != d) = true := bne_iff_ne.mpr hne
    simp only [propKeyStep, hk, hbne, hdup, Bool.true_and, if_true]
  · intro fuel defs props opts addl d json pos acc p1 p2 t p3 hk hc ht hp ho
    simp only [propKeyStep, hk, hc, ht, hp, ho, bne_self_eq_false, Bool.false_and,
      Bool.false_eq_true, if_false, ite_true, ite_false, reduceCtorEq]

theorem duplicate_key_hard_failure_witness :
    parseKeyValue 3 [] emptySchema ['"', 'a', '"', ':', '2'] 0 [("a", .num 1)] =
      .ex ("JSON: duplicate property " ++ "a") ∧
    propKeyStep 3 [] (some [("a", stringType)]) none false none
      ['"', 'a', '"', ':', '2'] 0 [("a", .str "x")] =
      .ex ("JSON: duplicate property " ++ "a") ∧
    propKeyStep 3 [] (some [("y", stringType)]) none false (some "type")
      ['"', 'y', '"', ':', '2'] 0 [("type", .str "b"), ("y", .str "hi")] =
      .ex ("JSON: duplicate property " ++ "y") ∧
    propKeyStep 3 [] (some [("y", stringType)]) none false (some "type")
      ['"', 't', 'y', 'p', 'e', '"', ':', '"', 'b', '"'] 0 [("type", .str "b")] =
      .ok [("type", .str "b")] 10 :=
  ⟨duplicate_key_hard_failure.1 2 [] emptySchema ['"', 'a', '"', ':', '2'] 0
      [("a", .num 1)] "a" 3 (by decide) (by decide),
   duplicate_key_hard_failure.2.1 2 [] (some [("a", stringType)]) none false
      ['"', 'a', '"', ':', '2'] 0 [("a", .str "x")] "a" 3 (by decide) (by decide),
   duplicate_key_hard_failure.2.2.1 2 [] (some [("y", stringType)]) none false "type"
      ['"', 'y', '"', ':', '2'] 0 [("type", .str "b"), ("y", .str "hi")] "y" 3
      (by decide) (by decide) (by decide),
   duplicate_key_hard_failure.2.2.2.1 2 [] (some [("y", stringType)]) none false "type"
      ['"', 't', 'y', 'p', 'e', '"', ':', '"', 'b', '"'] 0 [("type", .str "b")] 6 7 "b" 10
      (by decide) (by decide) (by decide) rfl rfl⟩

/-! ## C1: the discriminator two-pass protocol -/

theorem scan_eq (fuel : Nat) : ∀ tag json pos,
    discriminatorItems fuel tag json pos = specScanTag fuel tag json pos := by
  induction fuel with
  | zero => intro tag json pos; rfl
  | succ f ih =>
    intro tag json pos
    simp only [discriminatorItems, specScanTag, ih]

/-- C1: for every discriminator schema the generated parser behaves
exactly as the spec's two-pass protocol: record the position after the
opening brace, scan keys — parsing the tag's value as a string and
stopping when the tag field is found, parsing and discarding other values
generically — then rewind to the recorded start; with no tag the
invocation fails "discriminator tag not found", with a tag outside the
mapping it fails "discriminator value not in schema", and otherwise the
object is re-parsed with the matched branch's properties generator; on
that reparse a key equal to the tag field is recognized (its value is
re-read as a string) but not reassigned (the object under construction is
unchanged). -/
theorem discriminator_two_pass :
    (∀ fuel defs tag mapping nb ap json pos,
      parseForm fuel defs (.mk none none (some tag) mapping none none none none none nb ap)
        json pos = discriminatorSpec fuel defs tag mapping json pos) ∧
    (∀ fuel defs props opts addl tag json pos acc p1 p2 t p3,
      parseStringCode json pos = .ok tag p1 →
      parseToken [':'] json p1 = .ok () p2 →
      parseStringCode json p2 = .ok t p3 →
      findSch (props.getD []) tag = none →
      findSch (opts.getD []) tag = none →
      propKeyStep (fuel + 1) defs props opts addl (some tag) json pos acc = .ok acc p3) ∧
    parserFunction 50 [] discSchema discInputB 0 false none =
      .ret (.val (.obj [("type", .str "b"), ("y", .str "hi")])) none ∧
    parserFunction 50 [] discSchema
      ['{', '"', 't', 'y', 'p', 'e', '"', ':', '"', 'c', '"', '}'] 0 false none =
      .ret .undef (some ("discriminator value not in schema", 1)) ∧
    parserFunction 50 [] discSchema
      ['{', '"', 'y', '"', ':', '"', 'h', 'i', '"', '}'] 0 false none =
      .ret .undef (some ("discriminator tag not found", 1)) := by
  refine ⟨?_, ?_, by decide, by decide, by decide⟩
  · intro fuel defs tag mapping nb ap json pos
    cases fuel with
    | zero => rfl
    | succ f =>
      simp only [parseForm, selectForm, Schema.elements, Schema.values, Schema.discriminator,
        Schema.mapping, discriminatorSpec, scan_eq]
      cases ht : parseToken ['{'] json pos with
      | ok u start =>
        cases hs : specScanTag f tag json start with
        | ok tagOpt p =>
          cases tagOpt with
          | none => simp [hs]
          | some t => cases hm : findSch mapping t <;> simp [hs, hm]
        | err m p => simp [hs]
        | ex m => simp [hs]
        | fuelOut => simp [hs]
      | err m p => simp [ht]
      | ex m => simp [ht]
      | fuelOut => simp [ht]
  · intro fuel defs props opts addl tag json pos acc p1 p2 t p3 hk hc hts hp ho
    simp only [propKeyStep, hk, hc, hts, hp, ho, bne_self_eq_false, Bool.false_and,
      Bool.false_eq_true, if_false, ite_true, ite_false, reduceCtorEq]

theorem discriminator_two_pass_witness :
    parseForm 20 [] discSchema discInputB 1 =
      discriminatorSpec 20 [] "type" [("a", branchA), ("b", branchB)] discInputB 1 ∧
    propKeyStep 3 [] (some [("y", stringType)]) none false (some "type")
      ['"', 't', 'y', 'p', 'e', '"', ':', '"', 'b', '"'] 0 [("type", .str "b")] =
      .ok [("type", .str "b")] 10 :=
  ⟨discriminator_two_pass.1 20 [] "type" [("a", branchA), ("b", branchB)] false false
      discInputB 1,
   discriminator_two_pass.2.1 2 [] (some [("y", stringType)]) none false "type"
      ['"', 't', 'y', 'p', 'e', '"', ':', '"', 'b', '"'] 0 [("type", .str "b")]
      6 7 "b" 10 (by decide) (by decide) (by decide) rfl rfl⟩

/-! ## C9: fuel approximation, position monotonicity, termination -/

/-- Fuel approximation: with less fuel the result is either the same or
fuel exhaustion. -/
def PResT.approx {α : Type} (r rr : PResT α) : Prop := r = .fuelOut ∨ r = rr

theorem PResT.approx.refl {α : Type} (r : PResT α) : r.approx r := Or.inr rfl

theorem PResT.approx.stable {α : Type} {r rr : PResT α} (h : r.approx rr)
    (hne : r ≠ .fuelOut) : rr = r := by
  cases h with
  | inl h => exact absurd h hne
  | inr h => exact h.symm

/-- Lift a single-step fuel approximation to any larger fuel. -/
theorem fuel_mono {α : Type} (F : Nat → PResT α)
    (hstep : ∀ f, (F f).approx (F (f + 1)))
    {f g : Nat} (hfg : f ≤ g) (hne : F f ≠ .fuelOut) : F g = F f := by
  induction hfg with
  | refl => rfl
  | @step m _ ih =>
    have h2 : F m = F f := ih
    rw [(hstep m).stable (by rw [h2]; exact hne), h2]

/-- Lower bound on every position a parse step can report. -/
def PResT.posLB {α : Type} : PResT α → Nat → Prop
  | .ok _ p, n => n ≤ p
  | .err _ p, n => n ≤ p
  | .ex _, _ => True
  | .fuelOut, _ => True

theorem PResT.posLB.mono {α : Type} {r : PResT α} {m n : Nat} (hnm : n ≤ m)
    (h : r.posLB m) : r.posLB n := by
  cases r with
  | ok v p => exact Nat.le_trans hnm h
  | err msg p => exact Nat.le_trans hnm h
  | ex msg => trivial
  | fuelOut => trivial

theorem posLB_of_ok {α : Type} {r : PResT α} {v : α} {p n : Nat}
    (h : r.posLB n) (he : r = .ok v p) : n ≤ p := by subst he; exact h

theorem posLB_of_err {α : Type} {r : PResT α} {m : String} {p n : Nat}
    (h : r.posLB n) (he : r = .err m p) : n ≤ p := by subst he; exact h

/-! Primitive steps never exhaust fuel and never move backwards. -/

theorem parseToken_ne (tok json : List Char) (pos : Nat) :
    parseToken tok json pos ≠ .fuelOut := by
  by_cases h : (json.drop (skipWhitespace json pos)).take tok.length = tok <;>
    simp [parseToken, h]

theorem parseToken_posLB (tok json : List Char) (pos : Nat) :
    (parseToken tok json pos).posLB pos := by
  by_cases h : (json.drop (skipWhitespace json pos)).take tok.length = tok <;>
    simp only [parseToken, h, if_true, if_false]
  · exact Nat.le_trans (skipWhitespace_le json pos) (Nat.le_add_right _ _)
  · exact skipWhitespace_le json pos

theorem parseToken_ok_facts {c : Char} {json : List Char} {pos : Nat} {u : Unit} {p : Nat}
    (h : parseToken [c] json pos = .ok u p) :
    json[skipWhitespace json pos]? = some c ∧
      p = skipWhitespace json pos + 1 ∧ skipWhitespace json pos < json.length := by
  rw [parseToken_single] at h
  by_cases hq : json[skipWhitespace json pos]? = some c
  · rw [if_pos hq] at h
    injection h with _ h2
    refine ⟨hq, h2.symm, ?_⟩
    have := List.getElem?_eq_some_iff.mp hq
    exact this.1
  · rw [if_neg hq] at h
    exact absurd h (by simp)

theorem parseJsonString_posLB (json : List Char) (pos : Nat) (hlen : pos ≤ json.length) :
    ∀ {v q}, parseJsonString json pos = .ok (v, q) → pos ≤ q := by
  intro v q h
  unfold parseJsonString at h
  cases hs : strChars (json.drop pos) with
  | none => rw [hs] at h; exact absurd h (by simp)
  | some r =>
    rw [hs] at h
    injection h with h2
    injection h2 with ha hb
    omega

theorem parseJsonString_err_pos (json : List Char) (pos : Nat) :
    ∀ {m q}, parseJsonString json pos = .error (m, q) → q = json.length := by
  intro m q h
  unfold parseJsonString at h
  cases hs : strChars (json.drop pos) with
  | none =>
    rw [hs] at h
    injection h with h2
    injection h2 with ha hb
    omega
  | some r => rw [hs] at h; exact absurd h (by simp)

theorem parseStringCode_ne (json : List Char) (pos : Nat) :
    parseStringCode json pos ≠ .fuelOut := by
  unfold parseStringCode
  cases ht : parseToken ['"'] json pos with
  | ok u p =>
    cases hs : parseJsonString json p with
    | ok r => obtain ⟨v, q⟩ := r; simp [hs]
    | error e => obtain ⟨m, q⟩ := e; simp [hs]
  | err m p => simp
  | ex m => simp
  | fuelOut => exact absurd ht (parseToken_ne _ _ _)

theorem parseStringCode_posLB (json : List Char) (pos : Nat) :
    (parseStringCode json pos).posLB pos := by
  unfold parseStringCode
  cases ht : parseToken ['"'] json pos with
  | ok u p =>
    obtain ⟨hq, hp, hlt⟩ := parseToken_ok_facts ht
    have hple : pos ≤ p := by
      have := skipWhitespace_le json pos
      omega
    cases hs : parseJsonString json p with
    | ok r =>
      obtain ⟨v, q⟩ := r
      have hq : p ≤ q := parseJsonString_posLB json p (by omega) hs
      simp only [hs, PResT.posLB]
      omega
    | error e =>
      obtain ⟨m, q⟩ := e
      have hq : q = json.length := parseJsonString_err_pos json p hs
      simp only [hs, PResT.posLB]
      omega
  | err m p => exact posLB_of_err (parseToken_posLB _ _ _) ht
  | ex m => trivial
  | fuelOut => trivial

theorem parseJsonNumber_posLB (json : List Char) (pos : Nat) (md : Option Nat) :
    (∀ {n q}, parseJsonNumber json pos md = .ok (n, q) → pos ≤ q) ∧
      (∀ {m q}, parseJsonNumber json pos md = .error (m, q) → pos ≤ q) := by
  constructor <;>
    · intro a q h
      simp only [parseJsonNumber] at h
      repeat' split at h
      all_goals
        first
          | (injection h with h2; injection h2 with ha hb; omega)
          | injection h

theorem parseNumberCode_ne (md : Option Nat) (json : List Char) (pos : Nat) :
    parseNumberCode md json pos ≠ .fuelOut := by
  simp only [parseNumberCode]
  split
  · cases hn : parseJsonNumber json (skipWhitespace json pos) md with
    | ok r => obtain ⟨n, q⟩ := r; simp [hn]
    | error e => obtain ⟨m, q⟩ := e; simp [hn]
  · simp

theorem parseNumberCode_posLB (md : Option Nat) (json : List Char) (pos : Nat) :
    (parseNumberCode md json pos).posLB pos := by
  have hle := skipWhitespace_le json pos
  simp only [parseNumberCode]
  split
  · cases hn : parseJsonNumber json (skipWhitespace json pos) md with
    | ok r =>
      obtain ⟨n, q⟩ := r
      have := (parseJsonNumber_posLB json (skipWhitespace json pos) md).1 hn
      simp only [hn, PResT.posLB]
      omega
    | error e =>
      obtain ⟨m, q⟩ := e
      have := (parseJsonNumber_posLB json (skipWhitespace json pos) md).2 hn
      simp only [hn, PResT.posLB]
      omega
  · exact hle

theorem parseEnumCode_ne (members : List String) (json : List Char) (pos : Nat) :
    parseEnumCode members json pos ≠ .fuelOut := by
  unfold parseEnumCode
  cases ht : parseToken ['"'] json pos with
  | ok u p => cases hf : members.find? (enumMatches json p) <;> simp [hf]
  | err m p => simp
  | ex m => simp
  | fuelOut => exact absurd ht (parseToken_ne _ _ _)

theorem parseEnumCode_posLB (members : List String) (json : List Char) (pos : Nat) :
    (parseEnumCode members json pos).posLB pos := by
  unfold parseEnumCode
  cases ht : parseToken ['"'] json pos with
  | ok u p =>
    have hp : pos ≤ p := posLB_of_ok (parseToken_posLB _ _ _) ht
    cases hf : members.find? (enumMatches json p) with
    | none => simp only [hf, PResT.posLB]; exact hp
    | some m => simp only [hf, PResT.posLB]; omega
  | err m p => exact posLB_of_err (parseToken_posLB _ _ _) ht
  | ex m => trivial
  | fuelOut => trivial

theorem intBranch_ne (mn mx : Int) (md : Nat) (json : List Char) (pos : Nat) :
    (match parseNumberCode (some md) json pos with
      | PResT.ok (JsonValue.num n) q =>
        if n < mn ∨ n > mx then PResT.err "integer out of range" q
        else PResT.ok (JsonValue.num n) q
      | PResT.ok v q => PResT.ok v q
      | PResT.err m q => PResT.err m q
      | PResT.ex m => PResT.ex m
      | PResT.fuelOut => PResT.fuelOut) ≠ PResT.fuelOut := by
  cases hn : parseNumberCode (some md) json pos with
  | ok v q => cases v <;> simp <;> split <;> simp
  | err m q => simp
  | ex m => simp
  | fuelOut => exact absurd hn (parseNumberCode_ne _ _ _)

theorem intBranch_posLB (mn mx : Int) (md : Nat) (json : List Char) (pos : Nat) :
    (match parseNumberCode (some md) json pos with
      | PResT.ok (JsonValue.num n) q =>
        if n < mn ∨ n > mx then PResT.err "integer out of range" q
        else PResT.ok (JsonValue.num n) q
      | PResT.ok v q => PResT.ok v q
      | PResT.err m q => PResT.err m q
      | PResT.ex m => PResT.ex m
      | PResT.fuelOut => PResT.fuelOut).posLB pos := by
  cases hn : parseNumberCode (some md) json pos with
  | ok v q =>
    have hq := posLB_of_ok (parseNumberCode_posLB _ json pos) hn
    cases v with
    | num n =>
      show (if n < mn ∨ n > mx then PResT.err "integer out of range" q
        else PResT.ok (JsonValue.num n) q).posLB pos
      split <;> exact hq
    | null => exact hq
    | bool b => exact hq
    | str t => exact hq
    | arr l => exact hq
    | obj l => exact hq
  | err m q => exact posLB_of_err (parseNumberCode_posLB _ json pos) hn
  | ex m => trivial
  | fuelOut => trivial

theorem parseTypeCode_ne (t : JTDType) (json : List Char) (pos : Nat) :
    parseTypeCode t json pos ≠ .fuelOut := by
  cases t
  case boolean =>
    simp only [parseTypeCode]
    cases h1 : parseToken ['t', 'r', 'u', 'e'] json pos with
    | ok u p => simp [h1]
    | err m p =>
      simp only [h1]
      cases h2 : parseToken ['f', 'a', 'l', 's', 'e'] json p with
      | ok u q => simp [h2]
      | err mm q => simp [h2]
      | ex mm => simp [h2]
      | fuelOut => exact absurd h2 (parseToken_ne _ _ _)
    | ex m => simp [h1]
    | fuelOut => exact absurd h1 (parseToken_ne _ _ _)
  case string =>
    simp only [parseTypeCode]
    cases hs : parseStringCode json pos with
    | ok v q => simp [hs]
    | err m q => simp [hs]
    | ex m => simp [hs]
    | fuelOut => exact absurd hs (parseStringCode_ne _ _)
  case timestamp =>
    simp only [parseTypeCode]
    cases hs : parseStringCode json pos with
    | ok v q => simp only [hs]; split <;> simp
    | err m q => simp [hs]
    | ex m => simp [hs]
    | fuelOut => exact absurd hs (parseStringCode_ne _ _)
  case float32 => exact parseNumberCode_ne none json pos
  case float64 => exact parseNumberCode_ne none json pos
  case int8 => exact intBranch_ne (-128) 127 3 json pos
  case uint8 => exact intBranch_ne 0 255 3 json pos
  case int16 => exact intBranch_ne (-32768) 32767 5 json pos
  case uint16 => exact intBranch_ne 0 65535 5 json pos
  case int32 => exact intBranch_ne (-2147483648) 2147483647 10 json pos
  case uint32 => exact intBranch_ne 0 4294967295 10 json pos

theorem parseTypeCode_posLB (t : JTDType) (json : List Char) (pos : Nat) :
    (parseTypeCode t json pos).posLB pos := by
  cases t
  case boolean =>
    simp only [parseTypeCode]
    cases h1 : parseToken ['t', 'r', 'u', 'e'] json pos with
    | ok v p => simp only [h1]; exact posLB_of_ok (parseToken_posLB _ _ _) h1
    | err m p =>
      simp only [h1]
      have hp : pos ≤ p := posLB_of_err (parseToken_posLB _ _ _) h1
      cases h2 : parseToken ['f', 'a', 'l', 's', 'e'] json p with
      | ok v q =>
        have := posLB_of_ok (parseToken_posLB _ _ _) h2
        simp only [h2, PResT.posLB]
        omega
      | err mm q =>
        have := posLB_of_err (parseToken_posLB _ _ _) h2
        simp only [h2, PResT.posLB]
        omega
      | ex mm => simp only [h2, PResT.posLB]
      | fuelOut => simp only [h2, PResT.posLB]
    | ex m => simp only [h1]; trivial
    | fuelOut => simp only [h1]; trivial
  case string =>
    simp only [parseTypeCode]
    cases hs : parseStringCode json pos with
    | ok v q => simp only [hs]; exact posLB_of_ok (parseStringCode_posLB _ _) hs
    | err m q => simp only [hs]; exact posLB_of_err (parseStringCode_posLB _ _) hs
    | ex m => simp only [hs]; trivial
    | fuelOut => simp only [hs]; trivial
  case timestamp =>
    simp only [parseTypeCode]
    cases hs : parseStringCode json pos with
    | ok v q =>
      have := posLB_of_ok (parseStringCode_posLB json pos) hs
      simp only [hs]
      split <;> exact this
    | err m q => simp only [hs]; exact posLB_of_err (parseStringCode_posLB _ _) hs
    | ex m => simp only [hs]; trivial
    | fuelOut => simp only [hs]; trivial
  case float32 => exact parseNumberCode_posLB none json pos
  case float64 => exact parseNumberCode_posLB none json pos
  case int8 => exact intBranch_posLB (-128) 127 3 json pos
  case uint8 => exact intBranch_posLB 0 255 3 json pos
  case int16 => exact intBranch_posLB (-32768) 32767 5 json pos
  case uint16 => exact intBranch_posLB 0 65535 5 json pos
  case int32 => exact intBranch_posLB (-2147483648) 2147483647 10 json pos
  case uint32 => exact intBranch_posLB 0 4294967295 10 json pos

theorem finishItems_ne (endTok : Char) (json : List Char) (pos : Nat) (v : JsonValue) :
    finishItems endTok json pos v ≠ .fuelOut := by
  unfold finishItems
  cases ht : parseToken [endTok] json pos with
  | ok u p => simp
  | err m p => simp
  | ex m => simp
  | fuelOut => exact absurd ht (parseToken_ne _ _ _)

theorem finishItems_posLB (endTok : Char) (json : List Char) (pos : Nat) (v : JsonValue) :
    (finishItems endTok json pos v).posLB pos := by
  unfold finishItems
  cases ht : parseToken [endTok] json pos with
  | ok u p => exact posLB_of_ok (parseToken_posLB _ _ _) ht
  | err m p => exact posLB_of_err (parseToken_posLB _ _ _) ht
  | ex m => trivial
  | fuelOut => trivial

theorem finishProps_ne (props : Option (List (String × Schema))) (json : List Char)
    (pos : Nat) (acc : List (String × JsonValue)) :
    finishProps props json pos acc ≠ .fuelOut := by
  unfold finishProps
  cases ht : parseToken ['}'] json pos with
  | ok u p => cases props <;> simp <;> split <;> simp
  | err m p => simp
  | ex m => simp
  | fuelOut => exact absurd ht (parseToken_ne _ _ _)

theorem finishProps_posLB (props : Option (List (String × Schema))) (json : List Char)
    (pos : Nat) (acc : List (String × JsonValue)) :
    (finishProps props json pos acc).posLB pos := by
  unfold finishProps
  cases ht : parseToken ['}'] json pos with
  | ok u p =>
    have hp := posLB_of_ok (parseToken_posLB _ _ _) ht
    simp only [ht]
    cases props with
    | none => exact hp
    | some propsL =>
      by_cases hall : (propsL.all fun kv => hasKey acc kv.1) = true
      · simp only [hall, if_true]
        exact hp
      · simp only [hall, if_false]
        exact hp
  | err m p => simp only [ht]; exact posLB_of_err (parseToken_posLB _ _ _) ht
  | ex m => simp only [ht]; trivial
  | fuelOut => simp only [ht]; trivial

/-! Fuel approximation for the generic JSON parser. -/

theorem parseJson_approx (fuel : Nat) :
    (∀ json pos, (parseJson fuel json pos).approx (parseJson (fuel + 1) json pos)) ∧
    (∀ json pos acc,
      (jsonArrItems fuel json pos acc).approx (jsonArrItems (fuel + 1) json pos acc)) ∧
    (∀ json pos acc,
      (jsonObjItems fuel json pos acc).approx (jsonObjItems (fuel + 1) json pos acc)) := by
  induction fuel with
  | zero => exact ⟨fun _ _ => Or.inl rfl, fun _ _ _ => Or.inl rfl, fun _ _ _ => Or.inl rfl⟩
  | succ f ih =>
    obtain ⟨ihJ, ihA, ihO⟩ := ih
    refine ⟨?_, ?_, ?_⟩
    · intro json pos
      cases hc : json[skipWhitespace json pos]? with
      | none => simp only [parseJson, hc]; exact .inr rfl
      | some c =>
        simp only [parseJson, hc]
        by_cases h1 : c = 'n'
        · simp only [if_pos h1]; exact .inr rfl
        · simp only [if_neg h1]
          by_cases h2 : c = 't'
          · simp only [if_pos h2]; exact .inr rfl
          · simp only [if_neg h2]
            by_cases h3 : c = 'f'
            · simp only [if_pos h3]; exact .inr rfl
            · simp only [if_neg h3]
              by_cases h4 : c = '"'
              · simp only [if_pos h4]; exact .inr rfl
              · simp only [if_neg h4]
                by_cases h5 : c = '['
                · simp only [if_pos h5]; exact ihA json _ []
                · simp only [if_neg h5]
                  by_cases h6 : c = '{'
                  · simp only [if_pos h6]; exact ihO json _ []
                  · simp only [if_neg h6]
                    by_cases h7 : (c = '-' || isDigitChar c) = true
                    · simp only [if_pos h7]; exact .inr rfl
                    · simp only [if_neg h7]; exact .inr rfl
    · intro json pos acc
      simp only [jsonArrItems]
      by_cases hend : acc.isEmpty ∧ json[skipWhitespace json pos]? = some ']'
      · simp only [if_pos hend]; exact .inr rfl
      · simp only [if_neg hend]
        rcases ihJ json (skipWhitespace json pos) with hJ | hJ
        · simp only [hJ]; exact .inl rfl
        · rw [← hJ]
          cases hx : parseJson f json (skipWhitespace json pos) with
          | ok v q =>
            simp only [hx]
            split
            · exact ihA json _ _
            · exact .inr rfl
            · exact .inr rfl
          | err m q => simp only [hx]; exact .inr rfl
          | ex m => simp only [hx]; exact .inr rfl
          | fuelOut => simp only [hx]; exact .inl rfl
    · intro json pos acc
      simp only [jsonObjItems]
      by_cases hend : acc.isEmpty ∧ json[skipWhitespace json pos]? = some '}'
      · simp only [if_pos hend]; exact .inr rfl
      · simp only [if_neg hend]
        by_cases hq : json[skipWhitespace json pos]? = some '"'
        · simp only [if_pos hq]
          cases hk : parseJsonString json (skipWhitespace json pos + 1) with
          | ok r =>
            obtain ⟨k, q⟩ := r
            simp only [hk]
            by_cases hcol : json[skipWhitespace json q]? = some ':'
            · simp only [if_pos hcol]
              rcases ihJ json (skipWhitespace json q + 1) with hJ | hJ
              · simp only [hJ]; exact .inl rfl
              · rw [← hJ]
                cases hx : parseJson f json (skipWhitespace json q + 1) with
                | ok v q2 =>
                  simp only [hx]
                  split
                  · exact ihO json _ _
                  · exact .inr rfl
                  · exact .inr rfl
                | err m q2 => simp only [hx]; exact .inr rfl
                | ex m => simp only [hx]; exact .inr rfl
                | fuelOut => simp only [hx]; exact .inl rfl
            · simp only [if_neg hcol]; exact .inr rfl
          | error e => simp only [hk]; exact .inr rfl
        · simp only [if_neg hq]; exact .inr rfl

/-! Position monotonicity for the generic JSON parser. -/

theorem parseJson_posLB (fuel : Nat) :
    (∀ json pos, (parseJson fuel json pos).posLB pos) ∧
    (∀ json pos acc, (jsonArrItems fuel json pos acc).posLB pos) ∧
    (∀ json pos acc, (jsonObjItems fuel json pos acc).posLB pos) := by
  induction fuel with
  | zero => exact ⟨fun _ _ => trivial, fun _ _ _ => trivial, fun _ _ _ => trivial⟩
  | succ f ih =>
    obtain ⟨ihJ, ihA, ihO⟩ := ih
    refine ⟨?_, ?_, ?_⟩
    · intro json pos
      have hws := skipWhitespace_le json pos
      cases hc : json[skipWhitespace json pos]? with
      | none => simp only [parseJson, hc]; exact hws
      | some c =>
        have hlt : skipWhitespace json pos < json.length := (List.getElem?_eq_some_iff.mp hc).1
        simp only [parseJson, hc]
        by_cases h1 : c = 'n'
        · simp only [if_pos h1]
          split
          · simp only [PResT.posLB]; omega
          · exact hws
        · simp only [if_neg h1]
          by_cases h2 : c = 't'
          · simp only [if_pos h2]
            split
            · simp only [PResT.posLB]; omega
            · exact hws
          · simp only [if_neg h2]
            by_cases h3 : c = 'f'
            · simp only [if_pos h3]
              split
              · simp only [PResT.posLB]; omega
              · exact hws
            · simp only [if_neg h3]
              by_cases h4 : c = '"'
              · simp only [if_pos h4]
                cases hk : parseJsonString json (skipWhitespace json pos + 1) with
                | ok r =>
                  obtain ⟨v, q⟩ := r
                  have := parseJsonString_posLB json (skipWhitespace json pos + 1)
                    (by omega) hk
                  simp only [hk, PResT.posLB]
                  omega
                | error e =>
                  obtain ⟨m, q⟩ := e
                  have := parseJsonString_err_pos json (skipWhitespace json pos + 1) hk
                  simp only [hk, PResT.posLB]
                  omega
              · simp only [if_neg h4]
                by_cases h5 : c = '['
                · simp only [if_pos h5]
                  exact (ihA json _ []).mono (by omega)
                · simp only [if_neg h5]
                  by_cases h6 : c = '{'
                  · simp only [if_pos h6]
                    exact (ihO json _ []).mono (by omega)
                  · simp only [if_neg h6]
                    by_cases h7 : (c = '-' || isDigitChar c) = true
                    · simp only [if_pos h7]
                      cases hn : parseJsonNumber json (skipWhitespace json pos) none with
                      | ok r =>
                        obtain ⟨n, q⟩ := r
                        have := (parseJsonNumber_posLB json (skipWhitespace json pos)
                          none).1 hn
                        simp only [hn, PResT.posLB]
                        omega
                      | error e =>
                        obtain ⟨m, q⟩ := e
                        have := (parseJsonNumber_posLB json (skipWhitespace json pos)
                          none).2 hn
                        simp only [hn, PResT.posLB]
                        omega
                    · simp only [if_neg h7]; exact hws
    · intro json pos acc
      have hws := skipWhitespace_le json pos
      simp only [jsonArrItems]
      by_cases hend : acc.isEmpty ∧ json[skipWhitespace json pos]? = some ']'
      · simp only [if_pos hend, PResT.posLB]; omega
      · simp only [if_neg hend]
        cases hx : parseJson f json (skipWhitespace json pos) with
        | ok v q =>
          have hq : skipWhitespace json pos ≤ q := posLB_of_ok (ihJ json _) hx
          have hwq := skipWhitespace_le json q
          simp only [hx]
          split
          · exact (ihA json _ _).mono (by omega)
          · simp only [PResT.posLB]; omega
          · simp only [PResT.posLB]; omega
        | err m q =>
          have hq : skipWhitespace json pos ≤ q := posLB_of_err (ihJ json _) hx
          simp only [hx, PResT.posLB]
          omega
        | ex m => simp only [hx]; trivial
        | fuelOut => simp only [hx]; trivial
    · intro json pos acc
      have hws := skipWhitespace_le json pos
      simp only [jsonObjItems]
      by_cases hend : acc.isEmpty ∧ json[skipWhitespace json pos]? = some '}'
      · simp only [if_pos hend, PResT.posLB]; omega
      · simp only [if_neg hend]
        by_cases hq : json[skipWhitespace json pos]? = some '"'
        · have hlt : skipWhitespace json pos < json.length := (List.getElem?_eq_some_iff.mp hq).1
          simp only [if_pos hq]
          cases hk : parseJsonString json (skipWhitespace json pos + 1) with
          | ok r =>
            obtain ⟨k, q⟩ := r
            have hkq : skipWhitespace json pos + 1 ≤ q :=
              parseJsonString_posLB json _ (by omega) hk
            have hwq := skipWhitespace_le json q
            simp only [hk]
            by_cases hcol : json[skipWhitespace json q]? = some ':'
            · simp only [if_pos hcol]
              cases hx : parseJson f json (skipWhitespace json q + 1) with
              | ok v q2 =>
                have hq2 : skipWhitespace json q + 1 ≤ q2 := posLB_of_ok (ihJ json _) hx
                have hwq2 := skipWhitespace_le json q2
                simp only [hx]
                split
                · exact (ihO json _ _).mono (by omega)
                · simp only [PResT.posLB]; omega
                · simp only [PResT.posLB]; omega
              | err m q2 =>
                have hq2 : skipWhitespace json q + 1 ≤ q2 := posLB_of_err (ihJ json _) hx
                simp only [hx, PResT.posLB]
                omega
              | ex m => simp only [hx]; trivial
              | fuelOut => simp only [hx]; trivial
            · simp only [if_neg hcol, PResT.posLB]; omega
          | error e =>
            obtain ⟨m, q⟩ := e
            have := parseJsonString_err_pos json (skipWhitespace json pos + 1) hk
            simp only [hk, PResT.posLB]
            omega
        · simp only [if_neg hq, PResT.posLB]; omega

theorem parseJson_mono {json : List Char} {pos : Nat} {f g : Nat} (hfg : f ≤ g)
    (h : parseJson f json pos ≠ .fuelOut) : parseJson g json pos = parseJson f json pos :=
  fuel_mono (fun k => parseJson k json pos) (fun k => (parseJson_approx k).1 json pos) hfg h

theorem jsonArrItems_mono {json : List Char} {pos : Nat} {acc : List JsonValue}
    {f g : Nat} (hfg : f ≤ g) (h : jsonArrItems f json pos acc ≠ .fuelOut) :
    jsonArrItems g json pos acc = jsonArrItems f json pos acc :=
  fuel_mono (fun k => jsonArrItems k json pos acc)
    (fun k => (parseJson_approx k).2.1 json pos acc) hfg h

theorem jsonObjItems_mono {json : List Char} {pos : Nat} {acc : List (String × JsonValue)}
    {f g : Nat} (hfg : f ≤ g) (h : jsonObjItems f json pos acc ≠ .fuelOut) :
    jsonObjItems g json pos acc = jsonObjItems f json pos acc :=
  fuel_mono (fun k => jsonObjItems k json pos acc)
    (fun k => (parseJson_approx k).2.2 json pos acc) hfg h

/-- The position past the end of the input is fixed by the whitespace skip
and reads nothing. -/
theorem past_end (json : List Char) (pos : Nat) (h : json.length < pos) :
    skipWhitespace json pos = pos ∧ json[pos]? = none := by
  constructor
  · unfold skipWhitespace
    rw [List.drop_eq_nil_of_le (by omega)]
    simp [wsCount]
  · exact List.getElem?_eq_none_iff.mpr (by omega)

/-- Sufficient fuel exists for the generic JSON parser at every input and
position: induction on the remaining input length; every loop iteration
strictly advances the position. -/
theorem parseJson_exists : ∀ (n : Nat) (json : List Char) (pos : Nat),
    json.length + 1 - pos ≤ n →
    (∃ f, parseJson f json pos ≠ .fuelOut) ∧
    (∀ acc, ∃ f, jsonArrItems f json pos acc ≠ .fuelOut) ∧
    (∀ acc, ∃ f, jsonObjItems f json pos acc ≠ .fuelOut) := by
  intro n
  induction n with
  | zero =>
    intro json pos hm
    have hpos : json.length < pos := by omega
    obtain ⟨hws, hget⟩ := past_end json pos hpos
    refine ⟨⟨1, ?_⟩, fun acc => ⟨2, ?_⟩, fun acc => ⟨1, ?_⟩⟩
    · simp [parseJson, hws, hget]
    · simp [jsonArrItems, parseJson, hws, hget]
    · simp [jsonObjItems, hws, hget]
  | succ m ih =>
    intro json pos hm
    have hJ : ∀ pos2, pos ≤ pos2 → ∃ f, parseJson f json pos2 ≠ .fuelOut := by
      intro pos2 hle2
      cases hc : json[skipWhitespace json pos2]? with
      | none => exact ⟨1, by simp only [parseJson, hc]; simp⟩
      | some c =>
        have hlt : skipWhitespace json pos2 < json.length := (List.getElem?_eq_some_iff.mp hc).1
        have hple : pos2 ≤ skipWhitespace json pos2 := skipWhitespace_le json pos2
        by_cases h5 : c = '['
        · subst h5
          obtain ⟨f1, hf1⟩ := (ih json (skipWhitespace json pos2 + 1) (by omega)).2.1 []
          refine ⟨f1 + 1, ?_⟩
          simp only [parseJson, hc]
          simpa using hf1
        · by_cases h6 : c = '{'
          · subst h6
            obtain ⟨f1, hf1⟩ := (ih json (skipWhitespace json pos2 + 1) (by omega)).2.2 []
            refine ⟨f1 + 1, ?_⟩
            simp only [parseJson, hc]
            simpa [h5] using hf1
          · refine ⟨1, ?_⟩
            simp only [parseJson, hc]
            by_cases h1 : c = 'n'
            · simp only [if_pos h1]; split <;> simp
            · simp only [if_neg h1]
              by_cases h2 : c = 't'
              · simp only [if_pos h2]; split <;> simp
              · simp only [if_neg h2]
                by_cases h3 : c = 'f'
                · simp only [if_pos h3]; split <;> simp
                · simp only [if_neg h3]
                  by_cases h4 : c = '"'
                  · simp only [if_pos h4]
                    cases hk : parseJsonString json (skipWhitespace json pos2 + 1) with
                    | ok r => obtain ⟨v, q⟩ := r; simp [hk]
                    | error e => obtain ⟨mm, q⟩ := e; simp [hk]
                  · simp only [if_neg h4, if_neg h5, if_neg h6]
                    by_cases h7 : (c = '-' || isDigitChar c) = true
                    · simp only [if_pos h7]
                      cases hn : parseJsonNumber json (skipWhitespace json pos2) none with
                      | ok r => obtain ⟨v, q⟩ := r; simp [hn]
                      | error e => obtain ⟨mm, q⟩ := e; simp [hn]
                    · simp only [if_neg h7]; simp
    refine ⟨hJ pos (Nat.le_refl pos), ?_, ?_⟩
    · intro acc
      by_cases hend : acc.isEmpty ∧ json[skipWhitespace json pos]? = some ']'
      · exact ⟨1, by simp [jsonArrItems, hend]⟩
      · have hple := skipWhitespace_le json pos
        obtain ⟨f1, hf1⟩ := hJ (skipWhitespace json pos) hple
        cases hx : parseJson f1 json (skipWhitespace json pos) with
        | ok v q =>
          have hq : skipWhitespace json pos ≤ q :=
            posLB_of_ok ((parseJson_posLB f1).1 json _) hx
          have hwq := skipWhitespace_le json q
          cases hr : json[skipWhitespace json q]? with
          | some ch =>
            by_cases hcm : ch = ','
            · subst hcm
              obtain ⟨f2, hf2⟩ :=
                (ih json (skipWhitespace json q + 1) (by omega)).2.1 (acc ++ [v])
              refine ⟨max f1 f2 + 1, ?_⟩
              have hs1 : parseJson (max f1 f2) json (skipWhitespace json pos) =
                  parseJson f1 json (skipWhitespace json pos) :=
                parseJson_mono (Nat.le_max_left f1 f2) (by rw [hx]; simp)
              have hs2 : jsonArrItems (max f1 f2) json (skipWhitespace json q + 1)
                  (acc ++ [v]) = jsonArrItems f2 json (skipWhitespace json q + 1)
                  (acc ++ [v]) :=
                jsonArrItems_mono (Nat.le_max_right f1 f2) hf2
              simp only [jsonArrItems, if_neg hend, hs1, hx, hr, if_pos rfl, hs2]
              exact hf2
            · refine ⟨f1 + 1, ?_⟩
              have hne : jsonArrItems (f1 + 1) json pos acc =
                  match json[skipWhitespace json q]? with
                  | some ',' => jsonArrItems f1 json (skipWhitespace json q + 1) (acc ++ [v])
                  | some ']' => .ok (.arr (acc ++ [v])) (skipWhitespace json q + 1)
                  | _ => .err ("unexpected token " ++ tokenAt json (skipWhitespace json q))
                      (skipWhitespace json q) := by
                simp only [jsonArrItems, if_neg hend, hx]
              rw [hne, hr]
              by_cases hcb : ch = ']'
              · subst hcb; simp
              · have : (match (some ch : Option Char) with
                    | some ',' => jsonArrItems f1 json (skipWhitespace json q + 1) (acc ++ [v])
                    | some ']' => PResT.ok (.arr (acc ++ [v])) (skipWhitespace json q + 1)
                    | _ => PResT.err ("unexpected token " ++ tokenAt json (skipWhitespace json q))
                        (skipWhitespace json q)) =
                    PResT.err ("unexpected token " ++ tokenAt json (skipWhitespace json q))
                      (skipWhitespace json q) := by
                  split
                  · rename_i heq
                    injection heq with h2
                    exact absurd h2 hcm
                  · rename_i heq
                    injection heq with h2
                    exact absurd h2 hcb
                  · rfl
                rw [this]
                simp
          | none =>
            refine ⟨f1 + 1, ?_⟩
            simp only [jsonArrItems, if_neg hend, hx, hr]
            simp
        | err mm q => exact ⟨f1 + 1, by simp only [jsonArrItems, if_neg hend, hx]; simp⟩
        | ex mm => exact ⟨f1 + 1, by simp only [jsonArrItems, if_neg hend, hx]; simp⟩
        | fuelOut => exact absurd hx hf1
    · intro acc
      by_cases hend : acc.isEmpty ∧ json[skipWhitespace json pos]? = some '}'
      · exact ⟨1, by simp [jsonObjItems, hend]⟩
      · have hple := skipWhitespace_le json pos
        by_cases hq : json[skipWhitespace json pos]? = some '"'
        · have hlt : skipWhitespace json pos < json.length := (List.getElem?_eq_some_iff.mp hq).1
          cases hk : parseJsonString json (skipWhitespace json pos + 1) with
          | ok r =>
            obtain ⟨k, q⟩ := r
            have hkq : skipWhitespace json pos + 1 ≤ q :=
              parseJsonString_posLB json _ (by omega) hk
            have hwq := skipWhitespace_le json q
            by_cases hcol : json[skipWhitespace json q]? = some ':'
            · obtain ⟨f1, hf1⟩ := hJ (skipWhitespace json q + 1) (by omega)
              cases hx : parseJson f1 json (skipWhitespace json q + 1) with
              | ok v q2 =>
                have hq2 : skipWhitespace json q + 1 ≤ q2 :=
                  posLB_of_ok ((parseJson_posLB f1).1 json _) hx
                have hwq2 := skipWhitespace_le json q2
                cases hr : json[skipWhitespace json q2]? with
                | some ch =>
                  by_cases hcm : ch = ','
                  · subst hcm
                    obtain ⟨f2, hf2⟩ :=
                      (ih json (skipWhitespace json q2 + 1) (by omega)).2.2 (setKey acc k v)
                    refine ⟨max f1 f2 + 1, ?_⟩
                    have hs1 : parseJson (max f1 f2) json (skipWhitespace json q + 1) =
                        parseJson f1 json (skipWhitespace json q + 1) :=
                      parseJson_mono (Nat.le_max_left f1 f2) (by rw [hx]; simp)
                    have hs2 : jsonObjItems (max f1 f2) json (skipWhitespace json q2 + 1)
                        (setKey acc k v) = jsonObjItems f2 json (skipWhitespace json q2 + 1)
                        (setKey acc k v) :=
                      jsonObjItems_mono (Nat.le_max_right f1 f2) hf2
                    simp only [jsonObjItems, if_neg hend, if_pos hq, hk, if_pos hcol,
                      hs1, hx, hr, if_pos rfl, hs2]
                    exact hf2
                  · refine ⟨f1 + 1, ?_⟩
                    simp only [jsonObjItems, if_neg hend, if_pos hq, hk, if_pos hcol, hx, hr]
                    have : (match (some ch : Option Char) with
                        | some ',' => jsonObjItems f1 json (skipWhitespace json q2 + 1)
                            (setKey acc k v)
                        | some '}' => PResT.ok (.obj (setKey acc k v))
                            (skipWhitespace json q2 + 1)
                        | _ => PResT.err ("unexpected token " ++
                            tokenAt json (skipWhitespace json q2)) (skipWhitespace json q2)) ≠
                        PResT.fuelOut := by
                      split
                      · rename_i heq
                        injection heq with h2
                        exact absurd h2 hcm
                      · simp
                      · simp
                    exact this
                | none =>
                  refine ⟨f1 + 1, ?_⟩
                  simp only [jsonObjItems, if_neg hend, if_pos hq, hk, if_pos hcol, hx, hr]
                  simp
              | err mm q2 =>
                exact ⟨f1 + 1, by
                  simp only [jsonObjItems, if_neg hend, if_pos hq, hk, if_pos hcol, hx]; simp⟩
              | ex mm =>
                exact ⟨f1 + 1, by
                  simp only [jsonObjItems, if_neg hend, if_pos hq, hk, if_pos hcol, hx]; simp⟩
              | fuelOut => exact absurd hx hf1
            · exact ⟨1, by
                simp only [jsonObjItems, if_neg hend, if_pos hq, hk, if_neg hcol]; simp⟩
          | error e =>
            obtain ⟨mm, q⟩ := e
            exact ⟨1, by simp only [jsonObjItems, if_neg hend, if_pos hq, hk]; simp⟩
        · exact ⟨1, by simp only [jsonObjItems, if_neg hend, if_neg hq]; simp⟩

/-! Fuel lemmas for the discriminator pass-1 scan. -/

theorem discriminatorItems_approx (fuel : Nat) : ∀ tag json pos,
    (discriminatorItems fuel tag json pos).approx
      (discriminatorItems (fuel + 1) tag json pos) := by
  induction fuel with
  | zero => intro tag json pos; exact .inl rfl
  | succ f ih =>
    intro tag json pos
    simp only [discriminatorItems]
    by_cases hcond : pos < json.length ∧ json[pos]? ≠ some '}'
    · simp only [if_pos hcond]
      cases hk : parseStringCode json pos with
      | ok key p1 =>
        simp only [hk]
        cases hc : parseToken [':'] json p1 with
        | ok u p2 =>
          simp only [hc]
          by_cases hkey : key = tag
          · simp only [if_pos hkey]; exact .inr rfl
          · simp only [if_neg hkey]
            rcases (parseJson_approx f).1 json p2 with hJ | hJ
            · simp only [hJ]; exact .inl rfl
            · rw [← hJ]
              cases hx : parseJson f json p2 with
              | ok v p3 =>
                simp only [hx]
                by_cases hcm : json[skipWhitespace json p3]? = some ','
                · simp only [if_pos hcm]; exact ih tag json _
                · simp only [if_neg hcm]; exact .inr rfl
              | err m p => simp only [hx]; exact .inr rfl
              | ex m => simp only [hx]; exact .inr rfl
              | fuelOut => simp only [hx]; exact .inl rfl
        | err m p => simp only [hc]; exact .inr rfl
        | ex m => simp only [hc]; exact .inr rfl
        | fuelOut => simp only [hc]; exact .inr rfl
      | err m p => simp only [hk]; exact .inr rfl
      | ex m => simp only [hk]; exact .inr rfl
      | fuelOut => simp only [hk]; exact .inr rfl
    · simp only [if_neg hcond]; exact .inr rfl

theorem discriminatorItems_mono {tag : String} {json : List Char} {pos : Nat}
    {f g : Nat} (hfg : f ≤ g) (h : discriminatorItems f tag json pos ≠ .fuelOut) :
    discriminatorItems g tag json pos = discriminatorItems f tag json pos :=
  fuel_mono (fun k => discriminatorItems k tag json pos)
    (fun k => discriminatorItems_approx k tag json pos) hfg h

theorem discriminatorItems_posLB (fuel : Nat) : ∀ tag json pos,
    (discriminatorItems fuel tag json pos).posLB pos := by
  induction fuel with
  | zero => intro tag json pos; trivial
  | succ f ih =>
    intro tag json pos
    simp only [discriminatorItems]
    by_cases hcond : pos < json.length ∧ json[pos]? ≠ some '}'
    · simp only [if_pos hcond]
      cases hk : parseStringCode json pos with
      | ok key p1 =>
        have hp1 : pos ≤ p1 := posLB_of_ok (parseStringCode_posLB json pos) hk
        simp only [hk]
        cases hc : parseToken [':'] json p1 with
        | ok u p2 =>
          have hp2 : p1 ≤ p2 := posLB_of_ok (parseToken_posLB _ _ _) hc
          simp only [hc]
          by_cases hkey : key = tag
          · simp only [if_pos hkey]
            cases hts : parseStringCode json p2 with
            | ok t p3 =>
              have := posLB_of_ok (parseStringCode_posLB json p2) hts
              simp only [hts, PResT.posLB]
              omega
            | err m p =>
              have := posLB_of_err (parseStringCode_posLB json p2) hts
              simp only [hts, PResT.posLB]
              omega
            | ex m => simp only [hts]; trivial
            | fuelOut => simp only [hts]; trivial
          · simp only [if_neg hkey]
            cases hx : parseJson f json p2 with
            | ok v p3 =>
              have hp3 : p2 ≤ p3 := posLB_of_ok ((parseJson_posLB f).1 json p2) hx
              have hws := skipWhitespace_le json p3
              simp only [hx]
              by_cases hcm : json[skipWhitespace json p3]? = some ','
              · simp only [if_pos hcm]
                exact (ih tag json _).mono (by omega)
              · simp only [if_neg hcm, PResT.posLB]
                omega
            | err m p =>
              have := posLB_of_err ((parseJson_posLB f).1 json p2) hx
              simp only [hx, PResT.posLB]
              omega
            | ex m => simp only [hx]; trivial
            | fuelOut => simp only [hx]; trivial
        | err m p =>
          have := posLB_of_err (parseToken_posLB _ _ _) hc
          simp only [hc, PResT.posLB]
          omega
        | ex m => simp only [hc]; trivial
        | fuelOut => simp only [hc]; trivial
      | err m p =>
        have := posLB_of_err (parseStringCode_posLB json pos) hk
        simp only [hk, PResT.posLB]
        omega
      | ex m => simp only [hk]; trivial
      | fuelOut => simp only [hk]; trivial
    · simp only [if_neg hcond, PResT.posLB]
      omega

theorem discriminatorItems_exists : ∀ (n : Nat) (tag : String) (json : List Char)
    (pos : Nat), json.length + 1 - pos ≤ n →
    ∃ f, discriminatorItems f tag json pos ≠ .fuelOut := by
  intro n
  induction n with
  | zero =>
    intro tag json pos hm
    refine ⟨1, ?_⟩
    simp only [discriminatorItems]
    rw [if_neg (by omega)]
    simp
  | succ m ih =>
    intro tag json pos hm
    by_cases hcond : pos < json.length ∧ json[pos]? ≠ some '}'
    · cases hk : parseStringCode json pos with
      | ok key p1 =>
        have hp1 : pos ≤ p1 := posLB_of_ok (parseStringCode_posLB json pos) hk
        cases hc : parseToken [':'] json p1 with
        | ok u p2 =>
          have hp2 : p1 ≤ p2 := posLB_of_ok (parseToken_posLB _ _ _) hc
          by_cases hkey : key = tag
          · refine ⟨1, ?_⟩
            simp only [discriminatorItems, if_pos hcond, hk, hc, if_pos hkey]
            cases hts : parseStringCode json p2 with
            | ok t p3 => simp
            | err mm p => simp
            | ex mm => simp
            | fuelOut => exact absurd hts (parseStringCode_ne _ _)
          · obtain ⟨f1, hf1⟩ :=
              (parseJson_exists (json.length + 1 - p2) json p2 (Nat.le_refl _)).1
            cases hx : parseJson f1 json p2 with
            | ok v p3 =>
              have hp3 : p2 ≤ p3 := posLB_of_ok ((parseJson_posLB f1).1 json p2) hx
              have hws := skipWhitespace_le json p3
              by_cases hcm : json[skipWhitespace json p3]? = some ','
              · obtain ⟨f2, hf2⟩ := ih tag json (skipWhitespace json p3 + 1) (by omega)
                refine ⟨max f1 f2 + 1, ?_⟩
                have hs1 : parseJson (max f1 f2) json p2 = parseJson f1 json p2 :=
                  parseJson_mono (Nat.le_max_left _ _) (by rw [hx]; simp)
                have hs2 : discriminatorItems (max f1 f2) tag json
                    (skipWhitespace json p3 + 1) =
                    discriminatorItems f2 tag json (skipWhitespace json p3 + 1) :=
                  discriminatorItems_mono (Nat.le_max_right _ _) hf2
                simp only [discriminatorItems, if_pos hcond, hk, hc, if_neg hkey, hs1, hx,
                  if_pos hcm, hs2]
                exact hf2
              · refine ⟨f1 + 1, ?_⟩
                simp only [discriminatorItems, if_pos hcond, hk, hc, if_neg hkey, hx,
                  if_neg hcm]
                simp
            | err mm p =>
              refine ⟨f1 + 1, ?_⟩
              simp only [discriminatorItems, if_pos hcond, hk, hc, if_neg hkey, hx]
              simp
            | ex mm =>
              refine ⟨f1 + 1, ?_⟩
              simp only [discriminatorItems, if_pos hcond, hk, hc, if_neg hkey, hx]
              simp
            | fuelOut => exact absurd hx hf1
        | err mm p =>
          exact ⟨1, by simp only [discriminatorItems, if_pos hcond, hk, hc]; simp⟩
        | ex mm =>
          exact ⟨1, by simp only [discriminatorItems, if_pos hcond, hk, hc]; simp⟩
        | fuelOut => exact absurd hc (parseToken_ne _ _ _)
      | err mm p => exact ⟨1, by simp only [discriminatorItems, if_pos hcond, hk]; simp⟩
      | ex mm => exact ⟨1, by simp only [discriminatorItems, if_pos hcond, hk]; simp⟩
      | fuelOut => exact absurd hk (parseStringCode_ne _ _)
    · exact ⟨1, by simp only [discriminatorItems, if_neg hcond]; simp⟩

/-! Fuel approximation for the schema-driven parser. -/

theorem parse_approx (fuel : Nat) :
    (∀ defs s json pos,
      (parseCode fuel defs s json pos).approx (parseCode (fuel + 1) defs s json pos)) ∧
    (∀ defs s json pos,
      (parseForm fuel defs s json pos).approx (parseForm (fuel + 1) defs s json pos)) ∧
    (∀ defs sub json pos acc,
      (elementsItems fuel defs sub json pos acc).approx
        (elementsItems (fuel + 1) defs sub json pos acc)) ∧
    (∀ defs sub json pos acc,
      (parseKeyValue fuel defs sub json pos acc).approx
        (parseKeyValue (fuel + 1) defs sub json pos acc)) ∧
    (∀ defs sub json pos acc,
      (valuesItems fuel defs sub json pos acc).approx
        (valuesItems (fuel + 1) defs sub json pos acc)) ∧
    (∀ defs props opts addl disc json pos acc,
      (propKeyStep fuel defs props opts addl disc json pos acc).approx
        (propKeyStep (fuel + 1) defs props opts addl disc json pos acc)) ∧
    (∀ defs props opts addl disc json pos acc,
      (schemaPropsItems fuel defs props opts addl disc json pos acc).approx
        (schemaPropsItems (fuel + 1) defs props opts addl disc json pos acc)) := by
  induction fuel with
  | zero =>
    exact ⟨fun _ _ _ _ => .inl rfl, fun _ _ _ _ => .inl rfl, fun _ _ _ _ _ => .inl rfl,
      fun _ _ _ _ _ => .inl rfl, fun _ _ _ _ _ => .inl rfl, fun _ _ _ _ _ _ _ _ => .inl rfl,
      fun _ _ _ _ _ _ _ _ => .inl rfl⟩
  | succ f ih =>
    obtain ⟨ihC, ihF, ihE, ihK, ihV, ihP, ihS⟩ := ih
    refine ⟨?_, ?_, ?_, ?_, ?_, ?_, ?_⟩
    · intro defs s json pos
      simp only [parseCode]
      by_cases hb : s.nullable = true
      · simp only [hb, if_true]
        by_cases hn : (json.drop (skipWhitespace json pos)).take 4 = ['n', 'u', 'l', 'l']
        · simp only [if_pos hn]; exact .inr rfl
        · simp only [if_neg hn]; exact ihF defs s json _
      · simp only [hb, Bool.false_eq_true, if_false]
        exact ihF defs s json pos
    · intro defs s json pos
      simp only [parseForm]
      cases hs : selectForm s with
      | none => exact (parseJson_approx f).1 json pos
      | some F =>
        cases F with
        | elements sub =>
          cases ht : parseToken ['['] json pos with
          | ok u p => simp only [ht]; exact ihE defs sub json p []
          | err m p => simp only [ht]; exact .inr rfl
          | ex m => simp only [ht]; exact .inr rfl
          | fuelOut => simp only [ht]; exact .inr rfl
        | values sub =>
          cases ht : parseToken ['{'] json pos with
          | ok u p => simp only [ht]; exact ihV defs sub json p []
          | err m p => simp only [ht]; exact .inr rfl
          | ex m => simp only [ht]; exact .inr rfl
          | fuelOut => simp only [ht]; exact .inr rfl
        | discriminator tag mapping =>
          cases ht : parseToken ['{'] json pos with
          | ok u start =>
            simp only [ht]
            rcases discriminatorItems_approx f tag json start with hD | hD
            · simp only [hD]; exact .inl rfl
            · rw [← hD]
              cases hx : discriminatorItems f tag json start with
              | ok tagOpt p =>
                simp only [hx]
                cases tagOpt with
                | none => exact .inr rfl
                | some t =>
                  cases hm : findSch mapping t with
                  | none => simp only [hm]; exact .inr rfl
                  | some branch => simp only [hm]; exact ihS defs _ _ _ _ json start _
              | err m p => simp only [hx]; exact .inr rfl
              | ex m => simp only [hx]; exact .inr rfl
              | fuelOut => simp only [hx]; exact .inl rfl
          | err m p => simp only [ht]; exact .inr rfl
          | ex m => simp only [ht]; exact .inr rfl
          | fuelOut => simp only [ht]; exact .inr rfl
        | props =>
          cases ht : parseToken ['{'] json pos with
          | ok u p => simp only [ht]; exact ihS defs _ _ _ _ json p []
          | err m p => simp only [ht]; exact .inr rfl
          | ex m => simp only [ht]; exact .inr rfl
          | fuelOut => simp only [ht]; exact .inr rfl
        | enum members => exact .inr rfl
        | type t => exact .inr rfl
        | ref name =>
          cases hd : findSch defs name with
          | none => simp only [hd]; exact .inr rfl
          | some target =>
            simp only [hd]
            by_cases hr : hasRefS target = true
            · simp only [hr, if_true]
              rcases ihC defs target json pos with hT | hT
              · simp only [hT]; exact .inl rfl
              · rw [← hT]
                cases hx : parseCode f defs target json pos with
                | ok v p => simp only [hx]; exact .inr rfl
                | err m p => simp only [hx]; exact .inr rfl
                | ex m => simp only [hx]; exact .inr rfl
                | fuelOut => simp only [hx]; exact .inl rfl
            · simp only [hr, Bool.false_eq_true, if_false]
              exact ihC defs target json pos
    · intro defs sub json pos acc
      simp only [elementsItems]
      by_cases hcond : pos < json.length ∧ json[pos]? ≠ some ']'
      · simp only [if_pos hcond]
        rcases ihC defs sub json pos with hB | hB
        · simp only [hB]; exact .inl rfl
        · rw [← hB]
          cases hx : parseCode f defs sub json pos with
          | ok v p =>
            simp only [hx]
            by_cases hcm : json[skipWhitespace json p]? = some ','
            · simp only [if_pos hcm]; exact ihE defs sub json _ _
            · simp only [if_neg hcm]; exact .inr rfl
          | err m p => simp only [hx]; exact .inr rfl
          | ex m => simp only [hx]; exact .inr rfl
          | fuelOut => simp only [hx]; exact .inl rfl
      · simp only [if_neg hcond]; exact .inr rfl
    · intro defs sub json pos acc
      simp only [parseKeyValue]
      cases hk : parseStringCode json pos with
      | ok key p1 =>
        simp only [hk]
        by_cases hdup : hasKey acc key = true
        · simp only [hdup, if_true]; exact .inr rfl
        · simp only [hdup, Bool.false_eq_true, if_false]
          cases hc : parseToken [':'] json p1 with
          | ok u p2 =>
            simp only [hc]
            rcases ihC defs sub json p2 with hB | hB
            · simp only [hB]; exact .inl rfl
            · rw [← hB]
              cases hx : parseCode f defs sub json p2 with
              | ok v p3 => simp only [hx]; exact .inr rfl
              | err m p => simp only [hx]; exact .inr rfl
              | ex m => simp only [hx]; exact .inr rfl
              | fuelOut => simp only [hx]; exact .inl rfl
          | err m p => simp only [hc]; exact .inr rfl
          | ex m => simp only [hc]; exact .inr rfl
          | fuelOut => simp only [hc]; exact .inr rfl
      | err m p => simp only [hk]; exact .inr rfl
      | ex m => simp only [hk]; exact .inr rfl
      | fuelOut => simp only [hk]; exact .inr rfl
    · intro defs sub json pos acc
      simp only [valuesItems]
      by_cases hcond : pos < json.length ∧ json[pos]? ≠ some '}'
      · simp only [if_pos hcond]
        rcases ihK defs sub json pos acc with hB | hB
        · simp only [hB]; exact .inl rfl
        · rw [← hB]
          cases hx : parseKeyValue f defs sub json pos acc with
          | ok acc2 p =>
            simp only [hx]
            by_cases hcm : json[skipWhitespace json p]? = some ','
            · simp only [if_pos hcm]; exact ihV defs sub json _ _
            · simp only [if_neg hcm]; exact .inr rfl
          | err m p => simp only [hx]; exact .inr rfl
          | ex m => simp only [hx]; exact .inr rfl
          | fuelOut => simp only [hx]; exact .inl rfl
      · simp only [if_neg hcond]; exact .inr rfl
    · intro defs props opts addl disc json pos acc
      simp only [propKeyStep]
      cases hk : parseStringCode json pos with
      | ok key p1 =>
        simp only [hk]
        by_cases hdup :
            ((match disc with | some d => key != d | none => true) && hasKey acc key) = true
        · simp only [hdup, if_true]; exact .inr rfl
        · simp only [hdup, Bool.false_eq_true, if_false]
          cases hc : parseToken [':'] json p1 with
          | ok u p2 =>
            simp only [hc]
            cases hp : findSch (props.getD []) key with
            | some sub =>
              simp only [hp]
              rcases ihC defs sub json p2 with hB | hB
              · simp only [hB]; exact .inl rfl
              · rw [← hB]
                cases hx : parseCode f defs sub json p2 with
                | ok v p3 => simp only [hx]; exact .inr rfl
                | err m p => simp only [hx]; exact .inr rfl
                | ex m => simp only [hx]; exact .inr rfl
                | fuelOut => simp only [hx]; exact .inl rfl
            | none =>
              simp only [hp]
              cases ho : findSch (opts.getD []) key with
              | some sub =>
                simp only [ho]
                rcases ihC defs sub json p2 with hB | hB
                · simp only [hB]; exact .inl rfl
                · rw [← hB]
                  cases hx : parseCode f defs sub json p2 with
                  | ok v p3 => simp only [hx]; exact .inr rfl
                  | err m p => simp only [hx]; exact .inr rfl
                  | ex m => simp only [hx]; exact .inr rfl
                  | fuelOut => simp only [hx]; exact .inl rfl
              | none =>
                simp only [ho]
                by_cases hdisc : disc = some key
                · simp only [if_pos hdisc]; exact .inr rfl
                · simp only [if_neg hdisc]
                  by_cases haddl : addl = true
                  · simp only [haddl, if_true]
                    rcases (parseJson_approx f).1 json p2 with hJ | hJ
                    · simp only [hJ]; exact .inl rfl
                    · rw [← hJ]
                      cases hx : parseJson f json p2 with
                      | ok v p3 => simp only [hx]; exact .inr rfl
                      | err m p => simp only [hx]; exact .inr rfl
                      | ex m => simp only [hx]; exact .inr rfl
                      | fuelOut => simp only [hx]; exact .inl rfl
                  · simp only [haddl, Bool.false_eq_true, if_false]; exact .inr rfl
          | err m p => simp only [hc]; exact .inr rfl
          | ex m => simp only [hc]; exact .inr rfl
          | fuelOut => simp only [hc]; exact .inr rfl
      | err m p => simp only [hk]; exact .inr rfl
      | ex m => simp only [hk]; exact .inr rfl
      | fuelOut => simp only [hk]; exact .inr rfl
    · intro defs props opts addl disc json pos acc
      simp only [schemaPropsItems]
      by_cases hcond : pos < json.length ∧ json[pos]? ≠ some '}'
      · simp only [if_pos hcond]
        rcases ihP defs props opts addl disc json pos acc with hB | hB
        · simp only [hB]; exact .inl rfl
        · rw [← hB]
          cases hx : propKeyStep f defs props opts addl disc json pos acc with
          | ok acc2 p =>
            simp only [hx]
            by_cases hcm : json[skipWhitespace json p]? = some ','
            · simp only [if_pos hcm]; exact ihS defs props opts addl disc json _ _
            · simp only [if_neg hcm]; exact .inr rfl
          | err m p => simp only [hx]; exact .inr rfl
          | ex m => simp only [hx]; exact .inr rfl
          | fuelOut => simp only [hx]; exact .inl rfl
      · simp only [if_neg hcond]; exact .inr rfl

theorem parseCode_mono {defs : Defs} {s : Schema} {json : List Char} {pos : Nat}
    {f g : Nat} (hfg : f ≤ g) (h : parseCode f defs s json pos ≠ .fuelOut) :
    parseCode g defs s json pos = parseCode f defs s json pos :=
  fuel_mono (fun k => parseCode k defs s json pos)
    (fun k => (parse_approx k).1 defs s json pos) hfg h

theorem parseForm_mono {defs : Defs} {s : Schema} {json : List Char} {pos : Nat}
    {f g : Nat} (hfg : f ≤ g) (h : parseForm f defs s json pos ≠ .fuelOut) :
    parseForm g defs s json pos = parseForm f defs s json pos :=
  fuel_mono (fun k => parseForm k defs s json pos)
    (fun k => (parse_approx k).2.1 defs s json pos) hfg h

theorem elementsItems_mono {defs : Defs} {sub : Schema} {json : List Char} {pos : Nat}
    {acc : List JsonValue} {f g : Nat} (hfg : f ≤ g)
    (h : elementsItems f defs sub json pos acc ≠ .fuelOut) :
    elementsItems g defs sub json pos acc = elementsItems f defs sub json pos acc :=
  fuel_mono (fun k => elementsItems k defs sub json pos acc)
    (fun k => (parse_approx k).2.2.1 defs sub json pos acc) hfg h

theorem parseKeyValue_mono {defs : Defs} {sub : Schema} {json : List Char} {pos : Nat}
    {acc : List (String × JsonValue)} {f g : Nat} (hfg : f ≤ g)
    (h : parseKeyValue f defs sub json pos acc ≠ .fuelOut) :
    parseKeyValue g defs sub json pos acc = parseKeyValue f defs sub json pos acc :=
  fuel_mono (fun k => parseKeyValue k defs sub json pos acc)
    (fun k => (parse_approx k).2.2.2.1 defs sub json pos acc) hfg h

theorem valuesItems_mono {defs : Defs} {sub : Schema} {json : List Char} {pos : Nat}
    {acc : List (String × JsonValue)} {f g : Nat} (hfg : f ≤ g)
    (h : valuesItems f defs sub json pos acc ≠ .fuelOut) :
    valuesItems g defs sub json pos acc = valuesItems f defs sub json pos acc :=
  fuel_mono (fun k => valuesItems k defs sub json pos acc)
    (fun k => (parse_approx k).2.2.2.2.1 defs sub json pos acc) hfg h

theorem propKeyStep_mono {defs : Defs} {props opts : Option (List (String × Schema))}
    {addl : Bool} {disc : Option String} {json : List Char} {pos : Nat}
    {acc : List (String × JsonValue)} {f g : Nat} (hfg : f ≤ g)
    (h : propKeyStep f defs props opts addl disc json pos acc ≠ .fuelOut) :
    propKeyStep g defs props opts addl disc json pos acc =
      propKeyStep f defs props opts addl disc json pos acc :=
  fuel_mono (fun k => propKeyStep k defs props opts addl disc json pos acc)
    (fun k => (parse_approx k).2.2.2.2.2.1 defs props opts addl disc json pos acc) hfg h

theorem schemaPropsItems_mono {defs : Defs} {props opts : Option (List (String × Schema))}
    {addl : Bool} {disc : Option String} {json : List Char} {pos : Nat}
    {acc : List (String × JsonValue)} {f g : Nat} (hfg : f ≤ g)
    (h : schemaPropsItems f defs props opts addl disc json pos acc ≠ .fuelOut) :
    schemaPropsItems g defs props opts addl disc json pos acc =
      schemaPropsItems f defs props opts addl disc json pos acc :=
  fuel_mono (fun k => schemaPropsItems k defs props opts addl disc json pos acc)
    (fun k => (parse_approx k).2.2.2.2.2.2 defs props opts addl disc json pos acc) hfg h

/-! The parse position never moves below the invocation's start position:
even the discriminator's rewind only goes back to the position recorded
after the opening brace, which is at or past the start. -/

theorem parse_posLB (fuel : Nat) :
    (∀ defs s json pos, (parseCode fuel defs s json pos).posLB pos) ∧
    (∀ defs s json pos, (parseForm fuel defs s json pos).posLB pos) ∧
    (∀ defs sub json pos acc, (elementsItems fuel defs sub json pos acc).posLB pos) ∧
    (∀ defs sub json pos acc, (parseKeyValue fuel defs sub json pos acc).posLB pos) ∧
    (∀ defs sub json pos acc, (valuesItems fuel defs sub json pos acc).posLB pos) ∧
    (∀ defs props opts addl disc json pos acc,
      (propKeyStep fuel defs props opts addl disc json pos acc).posLB pos) ∧
    (∀ defs props opts addl disc json pos acc,
      (schemaPropsItems fuel defs props opts addl disc json pos acc).posLB pos) := by
  induction fuel with
  | zero =>
    exact ⟨fun _ _ _ _ => trivial, fun _ _ _ _ => trivial, fun _ _ _ _ _ => trivial,
      fun _ _ _ _ _ => trivial, fun _ _ _ _ _ => trivial, fun _ _ _ _ _ _ _ _ => trivial,
      fun _ _ _ _ _ _ _ _ => trivial⟩
  | succ f ih =>
    obtain ⟨ihC, ihF, ihE, ihK, ihV, ihP, ihS⟩ := ih
    refine ⟨?_, ?_, ?_, ?_, ?_, ?_, ?_⟩
    · intro defs s json pos
      simp only [parseCode]
      by_cases hb : s.nullable = true
      · simp only [hb, if_true]
        by_cases hn : (json.drop (skipWhitespace json pos)).take 4 = ['n', 'u', 'l', 'l']
        · simp only [if_pos hn]
          exact Nat.le_trans (skipWhitespace_le json pos) (Nat.le_add_right _ _)
        · simp only [if_neg hn]
          exact (ihF defs s json _).mono (skipWhitespace_le json pos)
      · simp only [hb, Bool.false_eq_true, if_false]
        exact ihF defs s json pos
    · intro defs s json pos
      simp only [parseForm]
      cases hs : selectForm s with
      | none => exact (parseJson_posLB f).1 json pos
      | some F =>
        cases F with
        | elements sub =>
          cases ht : parseToken ['['] json pos with
          | ok u p =>
            simp only [ht]
            exact (ihE defs sub json p []).mono (posLB_of_ok (parseToken_posLB _ _ _) ht)
          | err m p => simp only [ht]; exact posLB_of_err (parseToken_posLB _ _ _) ht
          | ex m => simp only [ht]; trivial
          | fuelOut => simp only [ht]; trivial
        | values sub =>
          cases ht : parseToken ['{'] json pos with
          | ok u p =>
            simp only [ht]
            exact (ihV defs sub json p []).mono (posLB_of_ok (parseToken_posLB _ _ _) ht)
          | err m p => simp only [ht]; exact posLB_of_err (parseToken_posLB _ _ _) ht
          | ex m => simp only [ht]; trivial
          | fuelOut => simp only [ht]; trivial
        | discriminator tag mapping =>
          cases ht : parseToken ['{'] json pos with
          | ok u start =>
            simp only [ht]
            have hst : pos ≤ start := posLB_of_ok (parseToken_posLB _ _ _) ht
            cases hx : discriminatorItems f tag json start with
            | ok tagOpt p =>
              simp only [hx]
              cases tagOpt with
              | none => exact hst
              | some t =>
                cases hm : findSch mapping t with
                | none => simp only [hm]; exact hst
                | some branch =>
                  simp only [hm]
                  exact (ihS defs _ _ _ _ json start _).mono hst
            | err m p =>
              simp only [hx]
              exact Nat.le_trans hst (posLB_of_err (discriminatorItems_posLB f tag json start) hx)
            | ex m => simp only [hx]; trivial
            | fuelOut => simp only [hx]; trivial
          | err m p => simp only [ht]; exact posLB_of_err (parseToken_posLB _ _ _) ht
          | ex m => simp only [ht]; trivial
          | fuelOut => simp only [ht]; trivial
        | props =>
          cases ht : parseToken ['{'] json pos with
          | ok u p =>
            simp only [ht]
            exact (ihS defs _ _ _ _ json p []).mono (posLB_of_ok (parseToken_posLB _ _ _) ht)
          | err m p => simp only [ht]; exact posLB_of_err (parseToken_posLB _ _ _) ht
          | ex m => simp only [ht]; trivial
          | fuelOut => simp only [ht]; trivial
        | enum members => exact parseEnumCode_posLB members json pos
        | type t => exact parseTypeCode_posLB t json pos
        | ref name =>
          cases hd : findSch defs name with
          | none => simp only [hd]; trivial
          | some target =>
            simp only [hd]
            by_cases hr : hasRefS target = true
            · simp only [hr, if_true]
              cases hx : parseCode f defs target json pos with
              | ok v p =>
                simp only [hx]
                exact Nat.le_trans (posLB_of_ok (ihC defs target json pos) hx)
                  (skipWhitespace_le json p)
              | err m p => simp only [hx]; exact posLB_of_err (ihC defs target json pos) hx
              | ex m => simp only [hx]; trivial
              | fuelOut => simp only [hx]; trivial
            · simp only [hr, Bool.false_eq_true, if_false]
              exact ihC defs target json pos
    · intro defs sub json pos acc
      simp only [elementsItems]
      by_cases hcond : pos < json.length ∧ json[pos]? ≠ some ']'
      · simp only [if_pos hcond]
        cases hx : parseCode f defs sub json pos with
        | ok v p =>
          simp only [hx]
          have hp : pos ≤ p := posLB_of_ok (ihC defs sub json pos) hx
          have hq : pos ≤ skipWhitespace json p := Nat.le_trans hp (skipWhitespace_le json p)
          by_cases hcm : json[skipWhitespace json p]? = some ','
          · simp only [if_pos hcm]
            exact (ihE defs sub json _ _).mono (by omega)
          · simp only [if_neg hcm]
            exact (finishItems_posLB _ json _ _).mono hq
        | err m p => simp only [hx]; exact posLB_of_err (ihC defs sub json pos) hx
        | ex m => simp only [hx]; trivial
        | fuelOut => simp only [hx]; trivial
      · simp only [if_neg hcond]
        exact finishItems_posLB _ json pos _
    · intro defs sub json pos acc
      simp only [parseKeyValue]
      cases hk : parseStringCode json pos with
      | ok key p1 =>
        simp only [hk]
        have h1 : pos ≤ p1 := posLB_of_ok (parseStringCode_posLB json pos) hk
        by_cases hdup : hasKey acc key = true
        · simp only [hdup, if_true]; trivial
        · simp only [hdup, Bool.false_eq_true, if_false]
          cases hc : parseToken [':'] json p1 with
          | ok u p2 =>
            simp only [hc]
            have h2 : p1 ≤ p2 := posLB_of_ok (parseToken_posLB _ _ _) hc
            cases hx : parseCode f defs sub json p2 with
            | ok v p3 =>
              simp only [hx]
              exact Nat.le_trans h1 (Nat.le_trans h2 (posLB_of_ok (ihC defs sub json p2) hx))
            | err m p =>
              simp only [hx]
              exact Nat.le_trans h1 (Nat.le_trans h2 (posLB_of_err (ihC defs sub json p2) hx))
            | ex m => simp only [hx]; trivial
            | fuelOut => simp only [hx]; trivial
          | err m p =>
            simp only [hc]
            exact Nat.le_trans h1 (posLB_of_err (parseToken_posLB _ _ _) hc)
          | ex m => simp only [hc]; trivial
          | fuelOut => simp only [hc]; trivial
      | err m p => simp only [hk]; exact posLB_of_err (parseStringCode_posLB json pos) hk
      | ex m => simp only [hk]; trivial
      | fuelOut => simp only [hk]; trivial
    · intro defs sub json pos acc
      simp only [valuesItems]
      by_cases hcond : pos < json.length ∧ json[pos]? ≠ some '}'
      · simp only [if_pos hcond]
        cases hx : parseKeyValue f defs sub json pos acc with
        | ok acc2 p =>
          simp only [hx]
          have hp : pos ≤ p := posLB_of_ok (ihK defs sub json pos acc) hx
          have hq : pos ≤ skipWhitespace json p := Nat.le_trans hp (skipWhitespace_le json p)
          by_cases hcm : json[skipWhitespace json p]? = some ','
          · simp only [if_pos hcm]
            exact (ihV defs sub json _ _).mono (by omega)
          · simp only [if_neg hcm]
            exact (finishItems_posLB _ json _ _).mono hq
        | err m p => simp only [hx]; exact posLB_of_err (ihK defs sub json pos acc) hx
        | ex m => simp only [hx]; trivial
        | fuelOut => simp only [hx]; trivial
      · simp only [if_neg hcond]
        exact finishItems_posLB _ json pos _
    · intro defs props opts addl disc json pos acc
      simp only [propKeyStep]
      cases hk : parseStringCode json pos with
      | ok key p1 =>
        simp only [hk]
        have h1 : pos ≤ p1 := posLB_of_ok (parseStringCode_posLB json pos) hk
        by_cases hdup :
            ((match disc with | some d => key != d | none => true) && hasKey acc key) = true
        · simp only [hdup, if_true]; trivial
        · simp only [hdup, Bool.false_eq_true, if_false]
          cases hc : parseToken [':'] json p1 with
          | ok u p2 =>
            simp only [hc]
            have h2 : pos ≤ p2 :=
              Nat.le_trans h1 (posLB_of_ok (parseToken_posLB _ _ _) hc)
            cases hp : findSch (props.getD []) key with
            | some sub =>
              simp only [hp]
              cases hx : parseCode f defs sub json p2 with
              | ok v p3 =>
                simp only [hx]
                exact Nat.le_trans h2 (posLB_of_ok (ihC defs sub json p2) hx)
              | err m p =>
                simp only [hx]
                exact Nat.le_trans h2 (posLB_of_err (ihC defs sub json p2) hx)
              | ex m => simp only [hx]; trivial
              | fuelOut => simp only [hx]; trivial
            | none =>
              simp only [hp]
              cases ho : findSch (opts.getD []) key with
              | some sub =>
                simp only [ho]
                cases hx : parseCode f defs sub json p2 with
                | ok v p3 =>
                  simp only [hx]
                  exact Nat.le_trans h2 (posLB_of_ok (ihC defs sub json p2) hx)
                | err m p =>
                  simp only [hx]
                  exact Nat.le_trans h2 (posLB_of_err (ihC defs sub json p2) hx)
                | ex m => simp only [hx]; trivial
                | fuelOut => simp only [hx]; trivial
              | none =>
                simp only [ho]
                by_cases hdisc : disc = some key
                · simp only [if_pos hdisc]
                  cases hx : parseStringCode json p2 with
                  | ok u p3 =>
                    simp only [hx]
                    exact Nat.le_trans h2 (posLB_of_ok (parseStringCode_posLB json p2) hx)
                  | err m p =>
                    simp only [hx]
                    exact Nat.le_trans h2 (posLB_of_err (parseStringCode_posLB json p2) hx)
                  | ex m => simp only [hx]; trivial
                  | fuelOut => simp only [hx]; trivial
                · simp only [if_neg hdisc]
                  by_cases haddl : addl = true
                  · simp only [haddl, if_true]
                    cases hx : parseJson f json p2 with
                    | ok v p3 =>
                      simp only [hx]
                      exact Nat.le_trans h2 (posLB_of_ok ((parseJson_posLB f).1 json p2) hx)
                    | err m p =>
                      simp only [hx]
                      exact Nat.le_trans h2 (posLB_of_err ((parseJson_posLB f).1 json p2) hx)
                    | ex m => simp only [hx]; trivial
                    | fuelOut => simp only [hx]; trivial
                  · simp only [haddl, Bool.false_eq_true, if_false]
                    exact h2
          | err m p =>
            simp only [hc]
            exact Nat.le_trans h1 (posLB_of_err (parseToken_posLB _ _ _) hc)
          | ex m => simp only [hc]; trivial
          | fuelOut => simp only [hc]; trivial
      | err m p => simp only [hk]; exact posLB_of_err (parseStringCode_posLB json pos) hk
      | ex m => simp only [hk]; trivial
      | fuelOut => simp only [hk]; trivial
    · intro defs props opts addl disc json pos acc
      simp only [schemaPropsItems]
      by_cases hcond : pos < json.length ∧ json[pos]? ≠ some '}'
      · simp only [if_pos hcond]
        cases hx : propKeyStep f defs props opts addl disc json pos acc with
        | ok acc2 p =>
          simp only [hx]
          have hp : pos ≤ p := posLB_of_ok (ihP defs props opts addl disc json pos acc) hx
          have hq : pos ≤ skipWhitespace json p := Nat.le_trans hp (skipWhitespace_le json p)
          by_cases hcm : json[skipWhitespace json p]? = some ','
          · simp only [if_pos hcm]
            exact (ihS defs props opts addl disc json _ _).mono (by omega)
          · simp only [if_neg hcm]
            exact (finishProps_posLB props json _ _).mono hq
        | err m p =>
          simp only [hx]
          exact posLB_of_err (ihP defs props opts addl disc json pos acc) hx
        | ex m => simp only [hx]; trivial
        | fuelOut => simp only [hx]; trivial
      · simp only [if_neg hcond]
        exact finishProps_posLB props json pos _

/-! Structural size of a schema, used as the recursion measure for the
termination proof: sub-schemas reached through the form keys are smaller. -/

mutual

def schemaSize : Schema → Nat
  | .mk e v _ m p o _ _ _ _ _ =>
    schemaSizeO e + schemaSizeO v + schemaSizeL m + schemaSizeOL p + schemaSizeOL o + 1

def schemaSizeO : Option Schema → Nat
  | none => 0
  | some s => schemaSize s + 1

def schemaSizeL : List (String × Schema) → Nat
  | [] => 0
  | (_, s) :: rest => schemaSize s + schemaSizeL rest + 1

def schemaSizeOL : Option (List (String × Schema)) → Nat
  | none => 0
  | some l => schemaSizeL l + 1

end

theorem schemaSize_pos (s : Schema) : 1 ≤ schemaSize s := by
  obtain ⟨el, vals, disc, mapping, props, opts, en, ty, rf, nb, ap⟩ := s
  simp only [schemaSize]
  omega

theorem findSch_size : ∀ (l : List (String × Schema)) (key : String) (s : Schema),
    findSch l key = some s → schemaSize s < schemaSizeL l := by
  intro l
  induction l with
  | nil => intro key s h; simp [findSch] at h
  | cons kv rest ih =>
    intro key s h
    obtain ⟨k, t⟩ := kv
    simp only [findSch] at h
    by_cases hk : k = key
    · rw [if_pos hk] at h
      injection h with h2
      subst h2
      simp only [schemaSizeL]
      omega
    · rw [if_neg hk] at h
      have := ih key s h
      simp only [schemaSizeL]
      omega

theorem findSchOL_size (ol : Option (List (String × Schema))) (key : String) (s : Schema)
    (h : findSch (ol.getD []) key = some s) : schemaSize s < schemaSizeOL ol := by
  cases ol with
  | none => simp [Option.getD_none, findSch] at h
  | some l =>
    simp only [Option.getD_some] at h
    have := findSch_size l key s h
    simp only [schemaSizeOL]
    omega

theorem size_elements {s sub : Schema} (h : s.elements = some sub) :
    schemaSize sub < schemaSize s := by
  obtain ⟨el, vals, disc, mapping, props, opts, en, ty, rf, nb, ap⟩ := s
  simp only [Schema.elements] at h
  subst h
  simp only [schemaSize, schemaSizeO]
  omega

theorem size_values {s sub : Schema} (h : s.values = some sub) :
    schemaSize sub < schemaSize s := by
  obtain ⟨el, vals, disc, mapping, props, opts, en, ty, rf, nb, ap⟩ := s
  simp only [Schema.values] at h
  subst h
  simp only [schemaSize, schemaSizeO]
  omega

theorem size_mapping {s : Schema} {t : String} {branch : Schema}
    (h : findSch s.mapping t = some branch) : schemaSize branch < schemaSize s := by
  obtain ⟨el, vals, disc, mapping, props, opts, en, ty, rf, nb, ap⟩ := s
  simp only [Schema.mapping] at h
  have := findSch_size mapping t branch h
  simp only [schemaSize]
  omega

theorem size_props {s : Schema} {key : String} {sub : Schema}
    (h : findSch (s.properties.getD []) key = some sub) : schemaSize sub < schemaSize s := by
  obtain ⟨el, vals, disc, mapping, props, opts, en, ty, rf, nb, ap⟩ := s
  simp only [Schema.properties] at h
  have := findSchOL_size props key sub h
  simp only [schemaSize]
  omega

theorem size_opts {s : Schema} {key : String} {sub : Schema}
    (h : findSch (s.optionalProperties.getD []) key = some sub) :
    schemaSize sub < schemaSize s := by
  obtain ⟨el, vals, disc, mapping, props, opts, en, ty, rf, nb, ap⟩ := s
  simp only [Schema.optionalProperties] at h
  have := findSchOL_size opts key sub h
  simp only [schemaSize]
  omega

/-! A ref-free schema stays ref-free under every sub-schema access. -/

theorem hasRef_parts {el vals : Option Schema} {disc : Option String}
    {mapping : List (String × Schema)} {props opts : Option (List (String × Schema))}
    {en : Option (List String)} {ty : Option JTDType} {rf : Option String}
    {nb ap : Bool}
    (hs : hasRefS (.mk el vals disc mapping props opts en ty rf nb ap) = false) :
    rf = none ∧ hasRefO el = false ∧ hasRefO vals = false ∧ hasRefL mapping = false ∧
      hasRefOL props = false ∧ hasRefOL opts = false := by
  simp only [hasRefS, Bool.or_eq_false_iff] at hs
  obtain ⟨⟨⟨⟨⟨h1, h2⟩, h3⟩, h4⟩, h5⟩, h6⟩ := hs
  refine ⟨?_, h2, h3, h4, h5, h6⟩
  cases rf with
  | none => rfl
  | some r => simp at h1

theorem hasRef_elements {s sub : Schema} (h : s.elements = some sub)
    (hs : hasRefS s = false) : hasRefS sub = false := by
  obtain ⟨el, vals, disc, mapping, props, opts, en, ty, rf, nb, ap⟩ := s
  obtain ⟨-, h2, -, -, -, -⟩ := hasRef_parts hs
  simp only [Schema.elements] at h
  subst h
  simpa only [hasRefO] using h2

theorem hasRef_values {s sub : Schema} (h : s.values = some sub)
    (hs : hasRefS s = false) : hasRefS sub = false := by
  obtain ⟨el, vals, disc, mapping, props, opts, en, ty, rf, nb, ap⟩ := s
  obtain ⟨-, -, h3, -, -, -⟩ := hasRef_parts hs
  simp only [Schema.values] at h
  subst h
  simpa only [hasRefO] using h3

theorem hasRef_mapping {s : Schema} (hs : hasRefS s = false) :
    hasRefL s.mapping = false := by
  obtain ⟨el, vals, disc, mapping, props, opts, en, ty, rf, nb, ap⟩ := s
  obtain ⟨-, -, -, h4, -, -⟩ := hasRef_parts hs
  simpa only [Schema.mapping] using h4

theorem hasRef_props {s : Schema} (hs : hasRefS s = false) :
    hasRefOL s.properties = false := by
  obtain ⟨el, vals, disc, mapping, props, opts, en, ty, rf, nb, ap⟩ := s
  obtain ⟨-, -, -, -, h5, -⟩ := hasRef_parts hs
  simpa only [Schema.properties] using h5

theorem hasRef_opts {s : Schema} (hs : hasRefS s = false) :
    hasRefOL s.optionalProperties = false := by
  obtain ⟨el, vals, disc, mapping, props, opts, en, ty, rf, nb, ap⟩ := s
  obtain ⟨-, -, -, -, -, h6⟩ := hasRef_parts hs
  simpa only [Schema.optionalProperties] using h6

theorem hasRef_ref_none {s : Schema} (hs : hasRefS s = false) : s.ref = none := by
  obtain ⟨el, vals, disc, mapping, props, opts, en, ty, rf, nb, ap⟩ := s
  obtain ⟨h1, -, -, -, -, -⟩ := hasRef_parts hs
  simpa only [Schema.ref] using h1

theorem hasRef_findSchL : ∀ {l : List (String × Schema)} {key : String} {sub : Schema},
    findSch l key = some sub → hasRefL l = false → hasRefS sub = false := by
  intro l
  induction l with
  | nil => intro key sub h _; simp [findSch] at h
  | cons kv rest ih =>
    intro key sub h hl
    obtain ⟨k, t⟩ := kv
    simp only [hasRefL, Bool.or_eq_false_iff] at hl
    simp only [findSch] at h
    by_cases hk : k = key
    · rw [if_pos hk] at h
      injection h with h2
      subst h2
      exact hl.1
    · rw [if_neg hk] at h
      exact ih h hl.2

theorem hasRef_findSchOL {ol : Option (List (String × Schema))} {key : String}
    {sub : Schema} (h : findSch (ol.getD []) key = some sub)
    (hol : hasRefOL ol = false) : hasRefS sub = false := by
  cases ol with
  | none => simp [Option.getD_none, findSch] at h
  | some l =>
    simp only [Option.getD_some] at h
    simp only [hasRefOL] at hol
    exact hasRef_findSchL h hol

/-! Inversion of the form selection: a selected form's payload comes from
the corresponding schema key. -/

theorem selectForm_elements_eq {s sub : Schema}
    (h : selectForm s = some (.elements sub)) : s.elements = some sub := by
  unfold selectForm at h
  repeat' split at h
  all_goals
    first
      | (injection h with h2; injection h2 with h3; subst h3; assumption)
      | (injection h with h2; injection h2)
      | (injection h)

theorem selectForm_values_eq {s sub : Schema}
    (h : selectForm s = some (.values sub)) : s.values = some sub := by
  unfold selectForm at h
  repeat' split at h
  all_goals
    first
      | (injection h with h2; injection h2 with h3; subst h3; assumption)
      | (injection h with h2; injection h2)
      | (injection h)

theorem selectForm_mapping_eq {s : Schema} {tag : String}
    {mapping : List (String × Schema)}
    (h : selectForm s = some (.discriminator tag mapping)) : mapping = s.mapping := by
  unfold selectForm at h
  repeat' split at h
  all_goals
    first
      | (injection h with h2; injection h2 with h3 h4; exact h4.symm)
      | (injection h with h2; injection h2)
      | (injection h)

theorem selectForm_ref_eq {s : Schema} {name : String}
    (h : selectForm s = some (.ref name)) : s.ref = some name := by
  unfold selectForm at h
  repeat' split at h
  all_goals
    first
      | (injection h with h2; injection h2 with h3; subst h3; assumption)
      | (injection h with h2; injection h2)
      | (injection h)

/-! Sufficient fuel exists for each generated loop, given that the
sub-schema generators it invokes admit sufficient fuel.  Each loop
iteration either stops or moves past a comma at or beyond the previous
position, so the remaining input length decreases. -/

theorem parseCode_exists_of_form {defs : Defs} {s : Schema} {json : List Char}
    (hF : ∀ pos, ∃ f, parseForm f defs s json pos ≠ .fuelOut) (pos : Nat) :
    ∃ f, parseCode f defs s json pos ≠ .fuelOut := by
  by_cases hb : s.nullable = true
  · by_cases hn : (json.drop (skipWhitespace json pos)).take 4 = ['n', 'u', 'l', 'l']
    · exact ⟨1, by simp only [parseCode, hb, if_true, if_pos hn]; simp⟩
    · obtain ⟨f, hf⟩ := hF (skipWhitespace json pos)
      exact ⟨f + 1, by simp only [parseCode, hb, if_true, if_neg hn]; exact hf⟩
  · obtain ⟨f, hf⟩ := hF pos
    exact ⟨f + 1, by simp only [parseCode, hb, Bool.false_eq_true, if_false]; exact hf⟩

theorem parseKeyValue_exists {defs : Defs} {sub : Schema} {json : List Char}
    (hsub : ∀ p, ∃ f, parseCode f defs sub json p ≠ .fuelOut) (pos : Nat)
    (acc : List (String × JsonValue)) :
    ∃ f, parseKeyValue f defs sub json pos acc ≠ .fuelOut := by
  cases hk : parseStringCode json pos with
  | ok key p1 =>
    by_cases hdup : hasKey acc key = true
    · exact ⟨1, by simp only [parseKeyValue, hk, hdup, if_true]; simp⟩
    · cases hc : parseToken [':'] json p1 with
      | ok u p2 =>
        obtain ⟨f1, hf1⟩ := hsub p2
        refine ⟨f1 + 1, ?_⟩
        simp only [parseKeyValue, hk, hdup, Bool.false_eq_true, if_false, hc]
        cases hx : parseCode f1 defs sub json p2 with
        | ok v p3 => simp [hx]
        | err m p => simp [hx]
        | ex m => simp [hx]
        | fuelOut => exact absurd hx hf1
      | err m p =>
        exact ⟨1, by
          simp only [parseKeyValue, hk, hdup, Bool.false_eq_true, if_false, hc]; simp⟩
      | ex m =>
        exact ⟨1, by
          simp only [parseKeyValue, hk, hdup, Bool.false_eq_true, if_false, hc]; simp⟩
      | fuelOut => exact absurd hc (parseToken_ne _ _ _)
  | err m p => exact ⟨1, by simp only [parseKeyValue, hk]; simp⟩
  | ex m => exact ⟨1, by simp only [parseKeyValue, hk]; simp⟩
  | fuelOut => exact absurd hk (parseStringCode_ne _ _)

theorem elementsItems_exists {defs : Defs} {sub : Schema} {json : List Char}
    (hsub : ∀ p, ∃ f, parseCode f defs sub json p ≠ .fuelOut) :
    ∀ (n pos : Nat), json.length + 1 - pos ≤ n →
    ∀ acc, ∃ f, elementsItems f defs sub json pos acc ≠ .fuelOut := by
  intro n
  induction n with
  | zero =>
    intro pos hm acc
    have hcond : ¬(pos < json.length ∧ json[pos]? ≠ some ']') := by
      rintro ⟨h1, -⟩
      omega
    exact ⟨1, by simp only [elementsItems, if_neg hcond]; exact finishItems_ne _ _ _ _⟩
  | succ m ih =>
    intro pos hm acc
    by_cases hcond : pos < json.length ∧ json[pos]? ≠ some ']'
    · obtain ⟨f1, hf1⟩ := hsub pos
      cases hx : parseCode f1 defs sub json pos with
      | ok v p =>
        have hp : pos ≤ p := posLB_of_ok ((parse_posLB f1).1 defs sub json pos) hx
        have hwp := skipWhitespace_le json p
        by_cases hcm : json[skipWhitespace json p]? = some ','
        · have hlt : skipWhitespace json p < json.length :=
            (List.getElem?_eq_some_iff.mp hcm).1
          obtain ⟨f2, hf2⟩ := ih (skipWhitespace json p + 1) (by omega) (acc ++ [v])
          refine ⟨max f1 f2 + 1, ?_⟩
          have hs1 : parseCode (max f1 f2) defs sub json pos =
              parseCode f1 defs sub json pos :=
            parseCode_mono (Nat.le_max_left _ _) (by rw [hx]; simp)
          have hs2 : elementsItems (max f1 f2) defs sub json (skipWhitespace json p + 1)
              (acc ++ [v]) = elementsItems f2 defs sub json (skipWhitespace json p + 1)
              (acc ++ [v]) := elementsItems_mono (Nat.le_max_right _ _) hf2
          simp only [elementsItems, if_pos hcond, hs1, hx, if_pos hcm, hs2]
          exact hf2
        · refine ⟨f1 + 1, ?_⟩
          simp only [elementsItems, if_pos hcond, hx, if_neg hcm]
          exact finishItems_ne _ _ _ _
      | err mm p => exact ⟨f1 + 1, by simp only [elementsItems, if_pos hcond, hx]; simp⟩
      | ex mm => exact ⟨f1 + 1, by simp only [elementsItems, if_pos hcond, hx]; simp⟩
      | fuelOut => exact absurd hx hf1
    · exact ⟨1, by simp only [elementsItems, if_neg hcond]; exact finishItems_ne _ _ _ _⟩

theorem valuesItems_exists {defs : Defs} {sub : Schema} {json : List Char}
    (hsub : ∀ p, ∃ f, parseCode f defs sub json p ≠ .fuelOut) :
    ∀ (n pos : Nat), json.length + 1 - pos ≤ n →
    ∀ acc, ∃ f, valuesItems f defs sub json pos acc ≠ .fuelOut := by
  intro n
  induction n with
  | zero =>
    intro pos hm acc
    have hcond : ¬(pos < json.length ∧ json[pos]? ≠ some '}') := by
      rintro ⟨h1, -⟩
      omega
    exact ⟨1, by simp only [valuesItems, if_neg hcond]; exact finishItems_ne _ _ _ _⟩
  | succ m ih =>
    intro pos hm acc
    by_cases hcond : pos < json.length ∧ json[pos]? ≠ some '}'
    · obtain ⟨f1, hf1⟩ := parseKeyValue_exists hsub pos acc
      cases hx : parseKeyValue f1 defs sub json pos acc with
      | ok acc2 p =>
        have hp : pos ≤ p :=
          posLB_of_ok ((parse_posLB f1).2.2.2.1 defs sub json pos acc) hx
        have hwp := skipWhitespace_le json p
        by_cases hcm : json[skipWhitespace json p]? = some ','
        · have hlt : skipWhitespace json p < json.length :=
            (List.getElem?_eq_some_iff.mp hcm).1
          obtain ⟨f2, hf2⟩ := ih (skipWhitespace json p + 1) (by omega) acc2
          refine ⟨max f1 f2 + 1, ?_⟩
          have hs1 : parseKeyValue (max f1 f2) defs sub json pos acc =
              parseKeyValue f1 defs sub json pos acc :=
            parseKeyValue_mono (Nat.le_max_left _ _) (by rw [hx]; simp)
          have hs2 : valuesItems (max f1 f2) defs sub json (skipWhitespace json p + 1)
              acc2 = valuesItems f2 defs sub json (skipWhitespace json p + 1) acc2 :=
            valuesItems_mono (Nat.le_max_right _ _) hf2
          simp only [valuesItems, if_pos hcond, hs1, hx, if_pos hcm, hs2]
          exact hf2
        · refine ⟨f1 + 1, ?_⟩
          simp only [valuesItems, if_pos hcond, hx, if_neg hcm]
          exact finishItems_ne _ _ _ _
      | err mm p => exact ⟨f1 + 1, by simp only [valuesItems, if_pos hcond, hx]; simp⟩
      | ex mm => exact ⟨f1 + 1, by simp only [valuesItems, if_pos hcond, hx]; simp⟩
      | fuelOut => exact absurd hx hf1
    · exact ⟨1, by simp only [valuesItems, if_neg hcond]; exact finishItems_ne _ _ _ _⟩

theorem propKeyStep_exists {defs : Defs} {props opts : Option (List (String × Schema))}
    {addl : Bool} {disc : Option String} {json : List Char}
    (hprops : ∀ key sub, findSch (props.getD []) key = some sub →
      ∀ p, ∃ f, parseCode f defs sub json p ≠ .fuelOut)
    (hopts : ∀ key sub, findSch (opts.getD []) key = some sub →
      ∀ p, ∃ f, parseCode f defs sub json p ≠ .fuelOut)
    (pos : Nat) (acc : List (String × JsonValue)) :
    ∃ f, propKeyStep f defs props opts addl disc json pos acc ≠ .fuelOut := by
  cases hk : parseStringCode json pos with
  | ok key p1 =>
    by_cases hdup :
        ((match disc with | some d => key != d | none => true) && hasKey acc key) = true
    · exact ⟨1, by simp only [propKeyStep, hk, hdup, if_true]; simp⟩
    · cases hc : parseToken [':'] json p1 with
      | ok u p2 =>
        cases hp : findSch (props.getD []) key with
        | some sub =>
          obtain ⟨f1, hf1⟩ := hprops key sub hp p2
          refine ⟨f1 + 1, ?_⟩
          simp only [propKeyStep, hk, hdup, Bool.false_eq_true, if_false, hc, hp]
          cases hx : parseCode f1 defs sub json p2 with
          | ok v p3 => simp [hx]
          | err m p => simp [hx]
          | ex m => simp [hx]
          | fuelOut => exact absurd hx hf1
        | none =>
          cases ho : findSch (opts.getD []) key with
          | some sub =>
            obtain ⟨f1, hf1⟩ := hopts key sub ho p2
            refine ⟨f1 + 1, ?_⟩
            simp only [propKeyStep, hk, hdup, Bool.false_eq_true, if_false, hc, hp, ho]
            cases hx : parseCode f1 defs sub json p2 with
            | ok v p3 => simp [hx]
            | err m p => simp [hx]
            | ex m => simp [hx]
            | fuelOut => exact absurd hx hf1
          | none =>
            by_cases hdisc : disc = some key
            · refine ⟨1, ?_⟩
              simp only [propKeyStep, hk, hdup, Bool.false_eq_true, if_false, hc, hp, ho,
                if_pos hdisc]
              cases hx : parseStringCode json p2 with
              | ok u2 p3 => simp [hx]
              | err m p => simp [hx]
              | ex m => simp [hx]
              | fuelOut => exact absurd hx (parseStringCode_ne _ _)
            · by_cases haddl : addl = true
              · obtain ⟨⟨f1, hf1⟩, -, -⟩ :=
                  parseJson_exists (json.length + 1 - p2) json p2 (Nat.le_refl _)
                refine ⟨f1 + 1, ?_⟩
                simp only [propKeyStep, hk, hdup, Bool.false_eq_true, if_false, hc, hp, ho,
                  if_neg hdisc, haddl, if_true]
                cases hx : parseJson f1 json p2 with
                | ok v p3 => simp [hx]
                | err m p => simp [hx]
                | ex m => simp [hx]
                | fuelOut => exact absurd hx hf1
              · exact ⟨1, by
                  simp only [propKeyStep, hk, hdup, Bool.false_eq_true, if_false, hc, hp,
                    ho, if_neg hdisc, haddl, if_false]; simp⟩
      | err m p =>
        exact ⟨1, by
          simp only [propKeyStep, hk, hdup, Bool.false_eq_true, if_false, hc]; simp⟩
      | ex m =>
        exact ⟨1, by
          simp only [propKeyStep, hk, hdup, Bool.false_eq_true, if_false, hc]; simp⟩
      | fuelOut => exact absurd hc (parseToken_ne _ _ _)
  | err m p => exact ⟨1, by simp only [propKeyStep, hk]; simp⟩
  | ex m => exact ⟨1, by simp only [propKeyStep, hk]; simp⟩
  | fuelOut => exact absurd hk (parseStringCode_ne _ _)

theorem schemaPropsItems_exists {defs : Defs}
    {props opts : Option (List (String × Schema))} {addl : Bool} {disc : Option String}
    {json : List Char}
    (hprops : ∀ key sub, findSch (props.getD []) key = some sub →
      ∀ p, ∃ f, parseCode f defs sub json p ≠ .fuelOut)
    (hopts : ∀ key sub, findSch (opts.getD []) key = some sub →
      ∀ p, ∃ f, parseCode f defs sub json p ≠ .fuelOut) :
    ∀ (n pos : Nat), json.length + 1 - pos ≤ n →
    ∀ acc, ∃ f, schemaPropsItems f defs props opts addl disc json pos acc ≠ .fuelOut := by
  intro n
  induction n with
  | zero =>
    intro pos hm acc
    have hcond : ¬(pos < json.length ∧ json[pos]? ≠ some '}') := by
      rintro ⟨h1, -⟩
      omega
    exact ⟨1, by simp only [schemaPropsItems, if_neg hcond]; exact finishProps_ne _ _ _ _⟩
  | succ m ih =>
    intro pos hm acc
    by_cases hcond : pos < json.length ∧ json[pos]? ≠ some '}'
    · obtain ⟨f1, hf1⟩ := propKeyStep_exists hprops hopts pos acc
      cases hx : propKeyStep f1 defs props opts addl disc json pos acc with
      | ok acc2 p =>
        have hp : pos ≤ p :=
          posLB_of_ok ((parse_posLB f1).2.2.2.2.2.1 defs props opts addl disc json pos acc) hx
        have hwp := skipWhitespace_le json p
        by_cases hcm : json[skipWhitespace json p]? = some ','
        · have hlt : skipWhitespace json p < json.length :=
            (List.getElem?_eq_some_iff.mp hcm).1
          obtain ⟨f2, hf2⟩ := ih (skipWhitespace json p + 1) (by omega) acc2
          refine ⟨max f1 f2 + 1, ?_⟩
          have hs1 : propKeyStep (max f1 f2) defs props opts addl disc json pos acc =
              propKeyStep f1 defs props opts addl disc json pos acc :=
            propKeyStep_mono (Nat.le_max_left _ _) (by rw [hx]; simp)
          have hs2 : schemaPropsItems (max f1 f2) defs props opts addl disc json
              (skipWhitespace json p + 1) acc2 = schemaPropsItems f2 defs props opts addl
              disc json (skipWhitespace json p + 1) acc2 :=
            schemaPropsItems_mono (Nat.le_max_right _ _) hf2
          simp only [schemaPropsItems, if_pos hcond, hs1, hx, if_pos hcm, hs2]
          exact hf2
        · refine ⟨f1 + 1, ?_⟩
          simp only [schemaPropsItems, if_pos hcond, hx, if_neg hcm]
          exact finishProps_ne _ _ _ _
      | err mm p =>
        exact ⟨f1 + 1, by simp only [schemaPropsItems, if_pos hcond, hx]; simp⟩
      | ex mm =>
        exact ⟨f1 + 1, by simp only [schemaPropsItems, if_pos hcond, hx]; simp⟩
      | fuelOut => exact absurd hx hf1
    · exact ⟨1, by simp only [schemaPropsItems, if_neg hcond]; exact finishProps_ne _ _ _ _⟩

/-- Termination for ref-free schemas: some fuel makes the generator chain
return, by strong induction on the schema size (the loop lemmas handle the
input-length recursion at fixed schema). -/
theorem parse_exists (defs : Defs) (json : List Char) :
    ∀ (N : Nat) (s : Schema), schemaSize s ≤ N → hasRefS s = false →
    (∀ pos, ∃ f, parseForm f defs s json pos ≠ .fuelOut) ∧
    (∀ pos, ∃ f, parseCode f defs s json pos ≠ .fuelOut) := by
  intro N
  induction N with
  | zero =>
    intro s hN
    exact absurd hN (by have := schemaSize_pos s; omega)
  | succ m ih =>
    intro s hN hs
    have hF : ∀ pos, ∃ f, parseForm f defs s json pos ≠ .fuelOut := by
      intro pos
      cases hsel : selectForm s with
      | none =>
        obtain ⟨⟨f, hf⟩, -, -⟩ :=
          parseJson_exists (json.length + 1 - pos) json pos (Nat.le_refl _)
        exact ⟨f + 1, by simp only [parseForm, hsel]; exact hf⟩
      | some F =>
        cases F with
        | elements sub =>
          have hel : s.elements = some sub := selectForm_elements_eq hsel
          have hsub : hasRefS sub = false := hasRef_elements hel hs
          have hsize : schemaSize sub ≤ m := by
            have := size_elements hel
            omega
          have hsubC := (ih sub hsize hsub).2
          cases ht : parseToken ['['] json pos with
          | ok u p =>
            obtain ⟨f1, hf1⟩ :=
              elementsItems_exists hsubC (json.length + 1 - p) p (Nat.le_refl _) []
            exact ⟨f1 + 1, by simp only [parseForm, hsel, ht]; exact hf1⟩
          | err mm p => exact ⟨1, by simp only [parseForm, hsel, ht]; simp⟩
          | ex mm => exact ⟨1, by simp only [parseForm, hsel, ht]; simp⟩
          | fuelOut => exact absurd ht (parseToken_ne _ _ _)
        | values sub =>
          have hv : s.values = some sub := selectForm_values_eq hsel
          have hsub : hasRefS sub = false := hasRef_values hv hs
          have hsize : schemaSize sub ≤ m := by
            have := size_values hv
            omega
          have hsubC := (ih sub hsize hsub).2
          cases ht : parseToken ['{'] json pos with
          | ok u p =>
            obtain ⟨f1, hf1⟩ :=
              valuesItems_exists hsubC (json.length + 1 - p) p (Nat.le_refl _) []
            exact ⟨f1 + 1, by simp only [parseForm, hsel, ht]; exact hf1⟩
          | err mm p => exact ⟨1, by simp only [parseForm, hsel, ht]; simp⟩
          | ex mm => exact ⟨1, by simp only [parseForm, hsel, ht]; simp⟩
          | fuelOut => exact absurd ht (parseToken_ne _ _ _)
        | discriminator tag mapping =>
          have hmap : mapping = s.mapping := selectForm_mapping_eq hsel
          cases ht : parseToken ['{'] json pos with
          | ok u start =>
            obtain ⟨fD, hfD⟩ :=
              discriminatorItems_exists (json.length + 1 - start) tag json start
                (Nat.le_refl _)
            cases hx : discriminatorItems fD tag json start with
            | ok tagOpt pp =>
              cases tagOpt with
              | none => exact ⟨fD + 1, by simp only [parseForm, hsel, ht, hx]; simp⟩
              | some t =>
                cases hm : findSch mapping t with
                | none =>
                  exact ⟨fD + 1, by simp only [parseForm, hsel, ht, hx, hm]; simp⟩
                | some branch =>
                  have hm2 : findSch s.mapping t = some branch := hmap ▸ hm
                  have hbr : hasRefS branch = false :=
                    hasRef_findSchL hm2 (hasRef_mapping hs)
                  have hbs : schemaSize branch < schemaSize s := size_mapping hm2
                  have hhp : ∀ key sub, findSch (branch.properties.getD []) key = some sub →
                      ∀ p, ∃ f, parseCode f defs sub json p ≠ .fuelOut := by
                    intro key sub hfs p
                    have hsub : hasRefS sub = false :=
                      hasRef_findSchOL hfs (hasRef_props hbr)
                    have hsize : schemaSize sub ≤ m := by
                      have h1 := size_props hfs
                      omega
                    exact (ih sub hsize hsub).2 p
                  have hho : ∀ key sub,
                      findSch (branch.optionalProperties.getD []) key = some sub →
                      ∀ p, ∃ f, parseCode f defs sub json p ≠ .fuelOut := by
                    intro key sub hfs p
                    have hsub : hasRefS sub = false :=
                      hasRef_findSchOL hfs (hasRef_opts hbr)
                    have hsize : schemaSize sub ≤ m := by
                      have h1 := size_opts hfs
                      omega
                    exact (ih sub hsize hsub).2 p
                  obtain ⟨fS, hfS⟩ :=
                    schemaPropsItems_exists hhp hho (json.length + 1 - start) start
                      (Nat.le_refl _) [(tag, .str t)]
                  refine ⟨max fD fS + 1, ?_⟩
                  have hs1 : discriminatorItems (max fD fS) tag json start =
                      discriminatorItems fD tag json start :=
                    discriminatorItems_mono (Nat.le_max_left _ _) (by rw [hx]; simp)
                  have hs2 : schemaPropsItems (max fD fS) defs branch.properties
                      branch.optionalProperties branch.additionalProperties (some tag)
                      json start [(tag, .str t)] = schemaPropsItems fS defs
                      branch.properties branch.optionalProperties
                      branch.additionalProperties (some tag) json start [(tag, .str t)] :=
                    schemaPropsItems_mono (Nat.le_max_right _ _) hfS
                  simp only [parseForm, hsel, ht, hs1, hx, hm, hs2]
                  exact hfS
            | err mm pp => exact ⟨fD + 1, by simp only [parseForm, hsel, ht, hx]; simp⟩
            | ex mm => exact ⟨fD + 1, by simp only [parseForm, hsel, ht, hx]; simp⟩
            | fuelOut => exact absurd hx hfD
          | err mm p => exact ⟨1, by simp only [parseForm, hsel, ht]; simp⟩
          | ex mm => exact ⟨1, by simp only [parseForm, hsel, ht]; simp⟩
          | fuelOut => exact absurd ht (parseToken_ne _ _ _)
        | props =>
          have hhp : ∀ key sub, findSch (s.properties.getD []) key = some sub →
              ∀ p, ∃ f, parseCode f defs sub json p ≠ .fuelOut := by
            intro key sub hfs p
            have hsub : hasRefS sub = false := hasRef_findSchOL hfs (hasRef_props hs)
            have hsize : schemaSize sub ≤ m := by
              have h1 := size_props hfs
              omega
            exact (ih sub hsize hsub).2 p
          have hho : ∀ key sub, findSch (s.optionalProperties.getD []) key = some sub →
              ∀ p, ∃ f, parseCode f defs sub json p ≠ .fuelOut := by
            intro key sub hfs p
            have hsub : hasRefS sub = false := hasRef_findSchOL hfs (hasRef_opts hs)
            have hsize : schemaSize sub ≤ m := by
              have h1 := size_opts hfs
              omega
            exact (ih sub hsize hsub).2 p
          cases ht : parseToken ['{'] json pos with
          | ok u p =>
            obtain ⟨f1, hf1⟩ :=
              schemaPropsItems_exists hhp hho (json.length + 1 - p) p (Nat.le_refl _) []
            exact ⟨f1 + 1, by simp only [parseForm, hsel, ht]; exact hf1⟩
          | err mm p => exact ⟨1, by simp only [parseForm, hsel, ht]; simp⟩
          | ex mm => exact ⟨1, by simp only [parseForm, hsel, ht]; simp⟩
          | fuelOut => exact absurd ht (parseToken_ne _ _ _)
        | enum members =>
          exact ⟨1, by simp only [parseForm, hsel]; exact parseEnumCode_ne _ _ _⟩
        | type t =>
          exact ⟨1, by simp only [parseForm, hsel]; exact parseTypeCode_ne _ _ _⟩
        | ref name =>
          have h1 := selectForm_ref_eq hsel
          rw [hasRef_ref_none hs] at h1
          exact absurd h1 (by simp)
    exact ⟨hF, fun pos => parseCode_exists_of_form hF pos⟩

/-- An invocation of the generator chain terminates when some fuel makes
the fueled embedding return (the fuel counts recursive entries of the
generated code, which the real program does not bound). -/
def ParseTerminates (defs : Defs) (s : Schema) (json : List Char) (pos : Nat) : Prop :=
  ∃ fuel, parseCode fuel defs s json pos ≠ .fuelOut

/-- The schema `\x7bref: "a"\x7d` compiled against `definitions:
\x7ba: \x7bref: "a"\x7d\x7d`: the ref target contains a ref, so parseRef
(source lines 327-336) compiles it as a standalone unit whose body
immediately invokes itself at the same position. -/
def cyclicRefSchema : Schema :=
  .mk none none none [] none none none none (some "a") false false

def cyclicDefs : Defs := [("a", cyclicRefSchema)]

theorem cyclicRef_fuelOut : ∀ f,
    parseCode f cyclicDefs cyclicRefSchema ['1'] 0 = .fuelOut ∧
    parseForm f cyclicDefs cyclicRefSchema ['1'] 0 = .fuelOut := by
  intro f
  induction f with
  | zero => exact ⟨rfl, rfl⟩
  | succ g ih =>
    have hnb : cyclicRefSchema.nullable = false := rfl
    have hsel : selectForm cyclicRefSchema = some (.ref "a") := rfl
    have hfind : findSch cyclicDefs "a" = some cyclicRefSchema := rfl
    have href : hasRefS cyclicRefSchema = true := by decide
    constructor
    · simp only [parseCode, hnb, Bool.false_eq_true, if_false]
      exact ih.2
    · simp only [parseForm, hsel, hfind, href, if_true, ih.1]

/-- The invocation of the compiled parser for `\x7bref: "a"\x7d` under
`definitions: \x7ba: \x7bref: "a"\x7d\x7d` never returns on input `"1"`:
no amount of fuel makes the self-call chain bottom out, and no input is
consumed between recursive entries. -/
theorem ref_cycle_divergence_counterexample :
    ¬ ParseTerminates cyclicDefs cyclicRefSchema ['1'] 0 := by
  rintro ⟨f, hf⟩
  exact hf (cyclicRef_fuelOut f).1

/-- C9: the termination half of the claim holds for ref-free schemas
(every item loop is guarded by `pos < json.length` and each iteration
resumes past a comma at or beyond the previous position), but not for
every schema: a reference cycle recurses at a fixed position, so the
universally quantified claim is refuted by `cyclicRefSchema`.  The
monotonicity half holds for every schema, fuel and outcome: the returned
or error position is at or beyond the start position — the discriminator's
rewind only goes back to the recorded position after the opening brace,
never before the invocation's start. -/
theorem ref_free_termination_and_monotonicity :
    (∀ (defs : Defs) (s : Schema) (json : List Char) (pos : Nat),
      hasRefS s = false → ParseTerminates defs s json pos) ∧
    (∀ (fuel : Nat) (defs : Defs) (s : Schema) (json : List Char) (pos : Nat)
      (v : JsonValue) (p : Nat), parseCode fuel defs s json pos = .ok v p → pos ≤ p) ∧
    (∀ (fuel : Nat) (defs : Defs) (s : Schema) (json : List Char) (pos : Nat)
      (m : String) (p : Nat), parseCode fuel defs s json pos = .err m p → pos ≤ p) := by
  refine ⟨?_, ?_, ?_⟩
  · intro defs s json pos hs
    exact (parse_exists defs json (schemaSize s) s (Nat.le_refl _) hs).2 pos
  · intro fuel defs s json pos v p h
    exact posLB_of_ok ((parse_posLB fuel).1 defs s json pos) h
  · intro fuel defs s json pos m p h
    exact posLB_of_err ((parse_posLB fuel).1 defs s json pos) h

theorem ref_free_termination_and_monotonicity_witness :
    ParseTerminates [] stringType ['"', 'a', '"'] 0 ∧
    (0 : Nat) ≤ 3 ∧ (0 : Nat) ≤ 0 :=
  ⟨ref_free_termination_and_monotonicity.1 [] stringType ['"', 'a', '"'] 0 (by decide),
   ref_free_termination_and_monotonicity.2.1 5 [] stringType ['"', 'a', '"'] 0
     (.str "a") 3 (by decide),
   ref_free_termination_and_monotonicity.2.2 5 [] stringType ['x'] 0
     "unexpected token x" 0 (by decide)⟩

end JtdParse
